import Mathlib

/-!
# Verification of the summa-aggregation distributed Merkle-sum-tree builder

This file shallowly embeds the core of the `summa-aggregation` repository:
the `AggregationMerkleSumTree` data structure
(`src/aggregation_merkle_sum_tree.rs`), the JSON (de)serialization layer
(`src/json_mst.rs`), the executor client (`src/executor/executor.rs`), the
mini-tree HTTP worker (`src/mini_tree_generator.rs`) and the orchestrator's
result-assembly logic (`src/orchestrator/mod.rs`), and proves or refutes the
frozen specification claims about them.

Field elements of the BN254 scalar field are embedded as natural numbers in
canonical form, with arithmetic performed explicitly modulo the field order.
The external `summa-backend` leaf-tree library (hashing, single-tree proof
generation and verification) is modelled from the specification's interface
description (§4.1, §4.5, §6.2 of the spec); those definitions carry doc
comments starting with "Modelled from the spec".  Rust `panic!`/index
out-of-bounds/`unwrap` failures are modelled by the `crashed` constructor of
`RustResult`, distinct from `Result::Err` values.
-/

namespace SummaAggregation

/-- Order of the BN254 (bn256) scalar field `Fr`, the field of node hashes
and node balances. -/
def bnP : Nat := 21888242871839275222246405745257275088548364400416034343698204186575808495617

/-- A field element of `Fr`, embedded as a natural number; canonical values
are `< bnP` and all field operations reduce modulo `bnP` explicitly. -/
abbrev Fp := Nat

/-- Field addition: explicit modular addition. -/
def fpAdd (a b : Fp) : Fp := (a + b) % bnP

/-- Outcome of running a piece of Rust code: a normal value, an error value
(`Result::Err`), or a crash (panic / index out of bounds / failed `unwrap`). -/
inductive RustResult (α : Type) where
  | ok (val : α)
  | err (msg : String)
  | crashed
deriving DecidableEq, Repr

/-- A node of a Merkle sum tree: a hash commitment together with one running
balance per currency (`Node<N_CURRENCIES>` in the source). -/
structure Node where
  hash : Fp
  balances : List Fp
deriving DecidableEq, Repr

/-- A user entry: username plus per-currency unbounded balances
(`Entry<N_CURRENCIES>` in the source, balances are `BigUint`). -/
structure Entry where
  username : String
  balances : List Nat
deriving DecidableEq, Repr

/-- A currency descriptor (`Cryptocurrency` in the source). -/
structure Cryptocurrency where
  name : String
  chain : String
deriving DecidableEq, Repr

/-- Modelled from the spec: the fixed hash functions of the external leaf
library (§3, §6.2).  `leafHash` consumes the leaf hash preimage
(username-field followed by the balances), `midHash` consumes the middle-node
hash preimage (the parent's summed balances followed by the two child
hashes), and `userToFp` is the library's injection of a username into the
field. The development is parameterized over this scheme. -/
structure HashScheme where
  leafHash : List Fp → Fp
  midHash : List Fp → Fp
  userToFp : String → Fp

/-- Hash preimage of a middle node: the parent's per-currency balances
(sums of the children's) followed by the two child hashes
(`[Fp; N_CURRENCIES + 2]` in the source). -/
def midPreimage (l r : Node) : List Fp :=
  List.zipWith fpAdd l.balances r.balances ++ [l.hash, r.hash]

/-- Combine two sibling nodes into their parent: the spec's child-combination
rule (§3): hash of the preimage, per-currency sums of the balances. -/
def combineNodes (hs : HashScheme) (l r : Node) : Node :=
  { hash := hs.midHash (midPreimage l r)
    balances := List.zipWith fpAdd l.balances r.balances }

/-- Modelled from the spec: reconstruct a middle node from its hash preimage,
as the library verifier does: the hash is recomputed from the preimage and
the balances are the leading entries of the preimage. -/
def middleNodeFromPreimage (hs : HashScheme) (p : List Fp) : Node :=
  { hash := hs.midHash p, balances := p.take (p.length - 2) }

/-- Hash preimage of a leaf node: the username field element followed by the
balances (`[Fp; N_CURRENCIES + 1]` in the source). -/
def leafPreimage (hs : HashScheme) (e : Entry) : List Fp :=
  hs.userToFp e.username :: e.balances.map (· % bnP)

/-- Modelled from the spec: compute the leaf node of an entry (§3): hash of
the leaf preimage, balances embedded into the field. -/
def computeLeaf (hs : HashScheme) (e : Entry) : Node :=
  { hash := hs.leafHash (leafPreimage hs e), balances := e.balances.map (· % bnP) }

/-- Modelled from the spec: reconstruct a leaf node from its hash preimage. -/
def leafNodeFromPreimage (hs : HashScheme) (p : List Fp) : Node :=
  { hash := hs.leafHash p, balances := p.drop 1 }

/-- Modelled from the spec: the implicit padding node used by the leaf
library's tree-building utility when a level has an unpaired node (§4.5
leaves the padding node to the library; it is modelled as the zero node). -/
def padNode : Node := { hash := 0, balances := [] }

/-- One bottom-up level of adjacent-pair reduction (§4.5): combine adjacent
pairs; an unpaired trailing node is combined with the implicit padding
node. -/
def pairLevel (hs : HashScheme) : List Node → List Node
  | a :: b :: rest => combineNodes hs a b :: pairLevel hs rest
  | [a] => [combineNodes hs a padNode]
  | [] => []

/-- The level `ℓ` of the tree over the given leaves: `ℓ`-fold adjacent-pair
reduction. -/
def layerAt (hs : HashScheme) (leaves : List Node) (ℓ : Nat) : List Node :=
  (pairLevel hs)^[ℓ] leaves

/-- All levels of a tree of the given depth over the given leaves, leaf level
first (the `nodes` vector of the source trees). -/
def buildLevels (hs : HashScheme) (leaves : List Node) (depth : Nat) : List (List Node) :=
  (List.range (depth + 1)).map (layerAt hs leaves)

/-- The single-tree Merkle sum tree consumed from the external library
(`MerkleSumTree<N_CURRENCIES, N_BYTES>`): root, node layers leaf-first,
depth, ordered entries, currency descriptors and the sortedness flag
(§3 of the spec, and the fields used by `src/executor/executor.rs`). -/
structure MerkleSumTree where
  root : Node
  nodes : List (List Node)
  depth : Nat
  entries : List Entry
  cryptocurrencies : List Cryptocurrency
  is_sorted : Bool
deriving DecidableEq, Repr

/-- Modelled from the spec: a mini tree is well formed when its layers are
exactly the bottom-up pair reduction of the leaves computed from its entries,
the entry list fills the whole leaf level (`2^depth` entries) and the root is
the single node of the top layer (§3, §4.1). -/
def mstWellFormed (hs : HashScheme) (t : MerkleSumTree) : Prop :=
  t.entries.length = 2 ^ t.depth ∧
  t.nodes = buildLevels hs (t.entries.map (computeLeaf hs)) t.depth ∧
  (layerAt hs (t.entries.map (computeLeaf hs)) t.depth).getD 0 padNode = t.root

/-- The `get_entry` of the external library: fetch `entries[index]`; an
out-of-bounds index panics. -/
def mstGetEntry (t : MerkleSumTree) (index : Nat) : RustResult Entry :=
  match t.entries.get? index with
  | some e => .ok e
  | none => .crashed

/-- Index of the sibling of `i` at its level, exactly as the source computes
it: `i - (i % 2) + (1 - i % 2)`. -/
def siblingIndex (i : Nat) : Nat := i - i % 2 + (1 - i % 2)

/-- The `get_middle_node_hash_preimage(level, index)` of the `Tree` trait:
the hash preimage of the middle node `nodes[level][index]`, computed from its
two children at `level - 1`.  `level = 0` or missing children crash
(out-of-bounds/underflow). Works uniformly for mini trees and for the
aggregation tree's own layers. -/
def middlePreimageAt (layers : List (List Node)) (level index : Nat) : RustResult (List Fp) :=
  if level = 0 then .crashed
  else
    match (layers.getD (level - 1) []).get? (2 * index),
        (layers.getD (level - 1) []).get? (2 * index + 1) with
    | some l, some r => .ok (midPreimage l r)
    | _, _ => .crashed

/-- A Merkle sum tree inclusion proof (`MerkleProof` of the external
library): the proven entry, the claimed root, the sibling leaf hash
preimage, the sibling middle-node hash preimages bottom-up, and the path
index bits (least significant first) as field elements. -/
structure MerkleProof where
  entry : Entry
  root : Node
  sibling_leaf_node_hash_preimage : List Fp
  sibling_middle_node_hash_preimages : List (List Fp)
  path_indices : List Fp
deriving DecidableEq, Repr

/-- Modelled from the spec: `generate_proof(index)` of the external library
(§6.2, §4.5 step 2): the entry, the path bits of `index`, the sibling leaf
preimage at the bottom and one sibling middle-node preimage per inner level
`1 ≤ ℓ < depth`, with the tree's root. -/
def mstGenerateProof (hs : HashScheme) (t : MerkleSumTree) (index : Nat) :
    RustResult MerkleProof :=
  match t.entries.get? index, t.entries.get? (siblingIndex index) with
  | some e, some sibEntry =>
    let mids := (List.range (t.depth - 1)).mapM (fun k =>
      match middlePreimageAt t.nodes (k + 1) (siblingIndex (index >>> (k + 1))) with
      | .ok p => some p
      | _ => none)
    match mids with
    | some ms =>
      .ok { entry := e
            root := t.root
            sibling_leaf_node_hash_preimage := leafPreimage hs sibEntry
            sibling_middle_node_hash_preimages := ms
            path_indices := (List.range t.depth).map (fun ℓ => (index >>> ℓ) % 2) }
    | none => .crashed
  | _, _ => .crashed

/-- One verification step: recombine the current node with a sibling node,
ordered by the recorded path bit. -/
def climbStep (hs : HashScheme) (cur : Node) (bs : Fp × Node) : Node :=
  if bs.1 = 0 then combineNodes hs cur bs.2 else combineNodes hs bs.2 cur

/-- Recompute the root candidate from a starting node and the (bit, sibling
node) pairs bottom-up. -/
def climb (hs : HashScheme) (start : Node) (path : List (Fp × Node)) : Node :=
  path.foldl (climbStep hs) start

/-- Modelled from the spec: `verify_proof` of the external library (§4.5):
recompute the leaf from the entry, reconstruct each sibling node from its
hash preimage (the leaf preimage at the bottom, middle preimages above),
fold upwards ordered by the path bits, and compare the result with the
proof's root. A proof whose path length does not match its preimage count
does not verify. -/
def verifyProof (hs : HashScheme) (p : MerkleProof) : Bool :=
  let sibs := leafNodeFromPreimage hs p.sibling_leaf_node_hash_preimage ::
    p.sibling_middle_node_hash_preimages.map (middleNodeFromPreimage hs)
  if p.path_indices.length = sibs.length then
    decide (climb hs (computeLeaf hs p.entry) (p.path_indices.zip sibs) = p.root)
  else
    false

/-- Fuel-driven ceiling base-2 logarithm (the fuel makes the recursion
structural so that proofs can evaluate it); `ceilLog2` below instantiates
the fuel. -/
def ceilLog2F : Nat → Nat → Nat
  | 0, _ => 0
  | fuel + 1, n => if n ≤ 1 then 0 else ceilLog2F fuel ((n + 1) / 2) + 1

/-- The `ceil(log2 n)`, the aggregation-depth computation of
`AggregationMerkleSumTree::new` (the source computes it as
`(n as f64).log2().ceil() as usize`, which coincides with the exact ceiling
logarithm for every vector length representable in memory). -/
def ceilLog2 (n : Nat) : Nat := ceilLog2F n n

/-- Modelled from the spec: `build_merkle_tree_from_leaves(leaves, depth)`
of the external library (§4.5): materialize the levels of the adjacent-pair
reduction of the leaves and return the root with them; with no leaves there
is no root and the build fails. -/
def buildMerkleTreeFromLeaves (hs : HashScheme) (leaves : List Node) (depth : Nat) :
    RustResult (Node × List (List Node)) :=
  match (layerAt hs leaves depth).get? 0 with
  | some r => .ok (r, buildLevels hs leaves depth)
  | none => .err "cannot build a tree with no leaves"

/-- The aggregation Merkle sum tree (`AggregationMerkleSumTree` in
`src/aggregation_merkle_sum_tree.rs`): root and aggregation layers above the
mini-tree roots, aggregation depth, currency descriptors and the ordered
mini trees. -/
structure AggregationMerkleSumTree where
  root : Node
  nodes : List (List Node)
  depth : Nat
  cryptocurrencies : List Cryptocurrency
  mini_trees : List MerkleSumTree
deriving DecidableEq, Repr

/-- The overflow error message of `AggregationMerkleSumTree::new`. -/
def overflowMsg : String :=
  "Accumulated balance is not in the expected range, proof generation will fail!"

/-- The empty-input error message of `AggregationMerkleSumTree::new`. -/
def emptyMsg : String := "Empty mini tree inputs"

/-- Per-currency accumulation of the mini-tree root balances, as
`AggregationMerkleSumTree::new` computes it: start from `C` zero field
elements and add each root's balances pointwise (field addition). -/
def balancesAcc (C : Nat) (roots : List Node) : List Fp :=
  roots.foldl (fun acc r => List.zipWith fpAdd acc r.balances) (List.replicate C 0)

/-- The `AggregationMerkleSumTree::new(mini_trees, cryptocurrencies)` for
`N_CURRENCIES = C`, `N_BYTES = B`: reject empty input, assert equal depths
(an unequal-depth input panics), compute the aggregation depth as the
ceiling base-2 logarithm of the number of roots (the source computes it via
`f64::log2().ceil()`, which coincides with `Nat.clog 2` on every vector
length representable in memory), reject any per-currency accumulated root
balance `≥ 2^(8·B)` and otherwise build the aggregation layers above the
roots. -/
def amstNew (hs : HashScheme) (C B : Nat) (mini_trees : List MerkleSumTree)
    (cryptocurrencies : List Cryptocurrency) : RustResult AggregationMerkleSumTree :=
  if mini_trees.isEmpty then .err emptyMsg
  else
    match mini_trees.head? with
    | none => .crashed
    | some m0 =>
      if mini_trees.all (fun m => m.depth = m0.depth) then
        let roots := mini_trees.map (·.root)
        let depth := ceilLog2 roots.length
        let acc := balancesAcc C roots
        if acc.any (fun b => 2 ^ (8 * B) ≤ b) then .err overflowMsg
        else
          match buildMerkleTreeFromLeaves hs roots depth with
          | .ok (root, nodes) =>
            .ok { root := root, nodes := nodes, depth := depth
                  cryptocurrencies := cryptocurrencies, mini_trees := mini_trees }
          | .err m => .err m
          | .crashed => .crashed
      else .crashed

/-- The `AggregationMerkleSumTree::get_entry_location(user_index)`: the mini-tree
index `u / 2^d` and intra-tree index `u mod 2^d`, where `d` is the depth of
`mini_trees[0]` (`1 << depth`). -/
def amstGetEntryLocation (t : AggregationMerkleSumTree) (user_index : Nat) :
    RustResult (Nat × Nat) :=
  match t.mini_trees.head? with
  | none => .crashed
  | some m0 =>
    let entries_per_mini_tree := 2 ^ m0.depth
    .ok (user_index / entries_per_mini_tree, user_index % entries_per_mini_tree)

/-- The `AggregationMerkleSumTree::get_entry(user_index)`: locate the mini tree
and delegate; an out-of-range mini-tree index panics. -/
def amstGetEntry (t : AggregationMerkleSumTree) (user_index : Nat) : RustResult Entry :=
  match amstGetEntryLocation t user_index with
  | .ok (mini_tree_index, entry_index) =>
    match t.mini_trees.get? mini_tree_index with
    | some mt => mstGetEntry mt entry_index
    | none => .crashed
  | .err m => .err m
  | .crashed => .crashed

/-- The top-proof loop of `AggregationMerkleSumTree::generate_proof`
(levels `0 ≤ ℓ < depth` in order): record the position bit of the current
index at every level and, when the sibling index is materialized at that
level and `ℓ ≠ 0`, also fetch the sibling middle-node hash preimage
(errors of the preimage fetch propagate). -/
def aggLoop (layers : List (List Node)) : List Nat → Nat → RustResult (List Fp × List (List Fp))
  | [], _ => .ok ([], [])
  | ℓ :: rest, current =>
    let position := current % 2
    let sibling_index := current - position + (1 - position)
    let fetched : RustResult (Option (List Fp)) :=
      if sibling_index < (layers.getD ℓ []).length ∧ ℓ ≠ 0 then
        match middlePreimageAt layers ℓ sibling_index with
        | .ok p => .ok (some p)
        | .err m => .err m
        | .crashed => .crashed
      else .ok none
    match fetched with
    | .ok o =>
      match aggLoop layers rest (current / 2) with
      | .ok (bits, pres) =>
        .ok ((position : Fp) :: bits, match o with | some p => p :: pres | none => pres)
      | .err m => .err m
      | .crashed => .crashed
    | .err m => .err m
    | .crashed => .crashed

/-- The `AggregationMerkleSumTree::generate_proof(index)`: locate the entry,
fetch the partner mini tree (the source indexes `mini_trees` without a
bounds check, so a missing partner panics), build the partial proof inside
the mini tree, extend it with the partner root's hash preimage and the
aggregation top-proof, and replace the proof root with the aggregation
root. -/
def amstGenerateProof (hs : HashScheme) (t : AggregationMerkleSumTree) (index : Nat) :
    RustResult MerkleProof :=
  match amstGetEntryLocation t index with
  | .ok (mini_tree_index, entry_index) =>
    match t.mini_trees.get? mini_tree_index with
    | none => .crashed
    | some mini_tree =>
      let sibling_mini_tree_index :=
        if mini_tree_index % 2 = 0 then mini_tree_index + 1 else mini_tree_index - 1
      match t.mini_trees.get? sibling_mini_tree_index with
      | none => .crashed
      | some sibling_mini_tree =>
        match mstGenerateProof hs mini_tree entry_index with
        | .ok partial_proof =>
          match middlePreimageAt sibling_mini_tree.nodes sibling_mini_tree.depth 0 with
          | .ok sibling_root_preimage =>
            match aggLoop t.nodes (List.range t.depth) mini_tree_index with
            | .ok (path_indices, sibling_middle_node_hash_preimages) =>
              .ok { partial_proof with
                    path_indices := partial_proof.path_indices ++ path_indices
                    sibling_middle_node_hash_preimages :=
                      partial_proof.sibling_middle_node_hash_preimages ++
                        (sibling_root_preimage :: sibling_middle_node_hash_preimages)
                    root := t.root }
            | .err m => .err m
            | .crashed => .crashed
          | _ => .crashed
        | .err m => .err m
        | .crashed => .crashed
  | .err m => .err m
  | .crashed => .crashed

/-! ## Radix string serialization

`summa-aggregation` ships node hashes and balances as `0x`-prefixed
lowercase hex strings (the `Debug` rendering of `Fr`, zero-padded to 64
digits) and entry balances as decimal strings (`BigUint::to_string`); they
are parsed back with `BigUint::parse_bytes` and `Fr::from_str_vartime`. -/

/-- The character of one digit value (decimal digits then lowercase hex
letters). -/
def digitChar (d : Nat) : Char :=
  if d < 10 then Char.ofNat (48 + d) else Char.ofNat (87 + d)

/-- The value of one digit character in radix `b` (digits `0`-`9` and
lowercase `a`-`f`, rejected when at least `b`), as `BigUint::parse_bytes`
reads it. -/
def digitVal (b : Nat) (c : Char) : Option Nat :=
  let raw : Option Nat :=
    if 48 ≤ c.toNat ∧ c.toNat ≤ 57 then some (c.toNat - 48)
    else if 97 ≤ c.toNat ∧ c.toNat ≤ 102 then some (c.toNat - 87)
    else none
  match raw with
  | some d => if d < b then some d else none
  | none => none

/-- Fuel-driven little-endian digit expansion (structural recursion so that
proofs can evaluate it); `toDigitsLE` below instantiates the fuel. -/
def toDigitsLEF : Nat → Nat → Nat → List Char
  | 0, _, _ => []
  | fuel + 1, b, n =>
    if n = 0 ∨ b < 2 then [] else digitChar (n % b) :: toDigitsLEF fuel b (n / b)

/-- Little-endian digit characters of `n` in radix `b` (`[]` for zero). -/
def toDigitsLE (b n : Nat) : List Char := toDigitsLEF n b n

/-- One step of radix parsing: shift the accumulator and add the next
digit; any invalid digit poisons the parse. -/
def parseDigitStep (b : Nat) (acc : Option Nat) (c : Char) : Option Nat :=
  match acc, digitVal b c with
  | some a, some d => some (b * a + d)
  | _, _ => none

/-- Radix-`b` parsing of a character list, as `BigUint::parse_bytes` does:
empty input or any invalid digit yields `none`. -/
def parseRadix (b : Nat) (cs : List Char) : Option Nat :=
  if cs.isEmpty then none
  else cs.foldl (parseDigitStep b) (some 0)

/-- The `Debug` rendering of an `Fr` value: `0x` followed by the 64-digit
zero-padded lowercase hex representation. -/
def fpToHexString (v : Fp) : String :=
  let ds := (toDigitsLE 16 v).reverse
  ⟨'0' :: 'x' :: (List.replicate (64 - ds.length) '0' ++ ds)⟩

/-- The `parse_fp_from_hex` (`src/json_mst.rs` and `src/executor/executor.rs`):
strip the first two characters, parse the rest as hex with
`BigUint::parse_bytes` (`unwrap` panics on failure) and map into the field
with `Fr::from_str_vartime`, which reduces modulo the field order. -/
def parseFpFromHex (s : String) : RustResult Fp :=
  match parseRadix 16 (s.data.drop 2) with
  | some v => .ok (v % bnP)
  | none => .crashed

/-- The `BigUint::to_string`: decimal, `"0"` for zero. -/
def natToDecString (n : Nat) : String :=
  if n = 0 then "0" else ⟨(toDigitsLE 10 n).reverse⟩

/-! ## JSON wire format (`src/json_mst.rs`) -/

/-- The `JsonNode`: a node with hex-string hash and balances. -/
structure JsonNode where
  hash : String
  balances : List String
deriving DecidableEq, Repr

/-- The `JsonEntry`: an entry with decimal-string balances. -/
structure JsonEntry where
  username : String
  balances : List String
deriving DecidableEq, Repr

/-- The `JsonMerkleSumTree`: the wire form of a whole mini tree. -/
structure JsonMerkleSumTree where
  root : JsonNode
  nodes : List (List JsonNode)
  depth : Nat
  entries : List JsonEntry
  is_sorted : Bool
deriving DecidableEq, Repr

/-- Monadic map over a list in the `RustResult` effect: the first error or
crash aborts. -/
def rrMapM {α β : Type} (f : α → RustResult β) : List α → RustResult (List β)
  | [] => .ok []
  | a :: rest =>
    match f a with
    | .ok b =>
      match rrMapM f rest with
      | .ok bs => .ok (b :: bs)
      | .err m => .err m
      | .crashed => .crashed
    | .err m => .err m
    | .crashed => .crashed

/-- The `convert_node_to_json`: hash and balances rendered as hex strings. -/
def convertNodeToJson (n : Node) : JsonNode :=
  { hash := fpToHexString n.hash, balances := n.balances.map fpToHexString }

/-- The `JsonEntry::from_entry`: username and decimal-string balances. -/
def jsonEntryFromEntry (e : Entry) : JsonEntry :=
  { username := e.username, balances := e.balances.map natToDecString }

/-- The `JsonEntry::to_entry::<C>`: fill a `C`-element balance array from the
parsed decimal strings.  A balance index beyond `C` is an out-of-bounds
write and a non-decimal balance string fails the `unwrap`; both panic. -/
def jsonEntryToEntry (C : Nat) (je : JsonEntry) : RustResult Entry :=
  if C < je.balances.length then .crashed
  else
    match je.balances.mapM (fun s => parseRadix 10 s.data) with
    | some vs => .ok { username := je.username
                       balances := vs ++ List.replicate (C - je.balances.length) 0 }
    | none => .crashed

/-- The `JsonNode::to_node::<C>`: parse the hash and each balance from hex
(`unwrap` panics on failure); the balance vector is converted into a
`C`-element array (`try_into().expect(..)` panics on a length mismatch). -/
def jsonNodeToNode (C : Nat) (jn : JsonNode) : RustResult Node :=
  match parseFpFromHex jn.hash with
  | .ok h =>
    match rrMapM parseFpFromHex jn.balances with
    | .ok bs => if bs.length = C then .ok { hash := h, balances := bs } else .crashed
    | .err m => .err m
    | .crashed => .crashed
  | .err m => .err m
  | .crashed => .crashed

/-- The `JsonMerkleSumTree::from_tree`: serialize root, layers and entries;
`is_sorted` is always set to `false`. -/
def jsonFromTree (t : MerkleSumTree) : JsonMerkleSumTree :=
  { root := convertNodeToJson t.root
    nodes := t.nodes.map (fun layer => layer.map convertNodeToJson)
    depth := t.depth
    entries := t.entries.map jsonEntryFromEntry
    is_sorted := false }

/-- The `JsonMerkleSumTree::to_mst::<C, B>`: parse root, layers and entries back
and reconstruct through the library's `from_params`, which the spec (§6.2)
describes as reconstruction without rehashing; the currency descriptors are
replaced by `C` copies of the `Dummy`/`ETH` placeholder. -/
def jsonToMst (C : Nat) (jt : JsonMerkleSumTree) : RustResult MerkleSumTree :=
  match jsonNodeToNode C jt.root with
  | .ok root =>
    match rrMapM (rrMapM (jsonNodeToNode C)) jt.nodes with
    | .ok nodes =>
      match rrMapM (jsonEntryToEntry C) jt.entries with
      | .ok entries =>
        .ok { root := root, nodes := nodes, depth := jt.depth, entries := entries
              cryptocurrencies := List.replicate C { name := "Dummy", chain := "ETH" }
              is_sorted := jt.is_sorted }
      | .err m => .err m
      | .crashed => .crashed
    | .err m => .err m
    | .crashed => .crashed
  | .err m => .err m
  | .crashed => .crashed

/-! ## Executor (`src/executor/executor.rs`) -/

/-- One HTTP attempt's outcome as seen by the executor: a transport-level
send failure (connection refused, DNS, timeout), or a response whose body
either decodes to a `JsonMerkleSumTree` or not (non-2xx bodies and malformed
JSON both fail decoding). The network is modelled as the list of outcomes
successive attempts would observe. -/
inductive HttpAttempt where
  | sendErr (msg : String)
  | response (decoded : Option JsonMerkleSumTree)
deriving DecidableEq, Repr

/-- Decoded-response handling shared by the executor models: rebuild the
entries from the request's own `JsonEntry` values (decimal parse,
`unwrap`), convert the returned root and layers from JSON (hex parse,
`unwrap`) and assemble the `MerkleSumTree` literal with `is_sorted: false`
(the literal carries no currency descriptors). -/
def handleDecodedResponse (C : Nat) (json_entries : List JsonEntry)
    (json_tree : JsonMerkleSumTree) : RustResult MerkleSumTree :=
  match rrMapM (jsonEntryToEntry C) json_entries with
  | .ok entries =>
    match jsonNodeToNode C json_tree.root with
    | .ok root =>
      match rrMapM (rrMapM (jsonNodeToNode C)) json_tree.nodes with
      | .ok nodes =>
        .ok { root := root, nodes := nodes, depth := json_tree.depth
              entries := entries, cryptocurrencies := [], is_sorted := false }
      | .err m => .err m
      | .crashed => .crashed
    | .err m => .err m
    | .crashed => .crashed
  | .err m => .err m
  | .crashed => .crashed

/-- The `Executor::generate_tree`: POST the entries once and process the single
outcome; a send failure or an undecodable body is returned as an error
immediately (the `?` operator), a decoded body is converted. The source
contains no retry loop, so only the first element of the network model is
ever consumed. -/
def executorGenerateTree (C : Nat) (json_entries : List JsonEntry)
    (network : List HttpAttempt) : RustResult MerkleSumTree :=
  match network.head? with
  | none => .crashed
  | some (.sendErr m) => .err m
  | some (.response none) => .err "error decoding response body"
  | some (.response (some json_tree)) => handleDecodedResponse C json_entries json_tree

/-- Modelled from the spec: the retry policy §4.2 claims for
`Executor::generate_tree` — up to 5 attempts total, retrying (after a fixed
delay, not modelled) on transport-level failure only, surfacing the last
transport error when attempts are exhausted; application-level failures are
returned immediately. -/
def generateTreeSpecRetry (C : Nat) (json_entries : List JsonEntry) :
    Nat → List HttpAttempt → RustResult MerkleSumTree
  | _, [] => .crashed
  | attemptsLeft, a :: rest =>
    match a with
    | .sendErr m =>
      if attemptsLeft ≤ 1 then .err m
      else generateTreeSpecRetry C json_entries (attemptsLeft - 1) rest
    | .response none => .err "error decoding response body"
    | .response (some json_tree) => handleDecodedResponse C json_entries json_tree

/-! ## Mini-tree worker (`src/mini_tree_generator.rs`) -/

/-- Modelled from the spec: the zero entry used by the leaf library to pad a
batch to a power of two (§4.1). -/
def zeroEntry (C : Nat) : Entry := { username := "", balances := List.replicate C 0 }

/-- Modelled from the spec: `MerkleSumTree::from_entries(entries, false)` of
the external library (§4.1, §6.2): pad the entries to the next power of two,
compute the leaves, fold adjacent pairs bottom-up into `log2` levels and
return the whole tree. -/
def mstFromEntries (hs : HashScheme) (C : Nat) (entries : List Entry) :
    RustResult MerkleSumTree :=
  let depth := ceilLog2 (max entries.length 1)
  let padded := entries ++ List.replicate (2 ^ depth - entries.length) (zeroEntry C)
  let leaves := padded.map (computeLeaf hs)
  match (layerAt hs leaves depth).get? 0 with
  | some root =>
    .ok { root := root, nodes := buildLevels hs leaves depth, depth := depth
          entries := padded, cryptocurrencies := [], is_sorted := false }
  | none => .err "cannot build a tree with no leaves"

/-- The `create_mst`, the worker's `POST /` handler body for `N_ASSETS = C`
(after axum has already decoded the JSON request body): convert each
`JsonEntry` with the same parse-`unwrap` pattern as `JsonEntry::to_entry`
(panics on a non-decimal balance string or an overlong balance vector),
build the tree with `from_entries(..).unwrap()` (panics on a builder
error), and serialize the result with HTTP status 200.  The handler's error
variant (`(StatusCode, Json<JsonMerkleSumTree>)`) is never produced. -/
def createMst (hs : HashScheme) (C : Nat) (json_entries : List JsonEntry) :
    RustResult (Nat × JsonMerkleSumTree) :=
  match rrMapM (jsonEntryToEntry C) json_entries with
  | .ok entries =>
    match mstFromEntries hs C entries with
    | .ok tree =>
      .ok (200,
        { root := convertNodeToJson tree.root
          nodes := tree.nodes.map (fun layer => layer.map convertNodeToJson)
          depth := tree.depth
          entries := tree.entries.map jsonEntryFromEntry
          is_sorted := false })
    | .err _ => .crashed
    | .crashed => .crashed
  | .err _ => .crashed
  | .crashed => .crashed

/-! ## Orchestrator (`src/orchestrator/mod.rs`)

The channel pipeline is abstracted as follows: worker `i` contributes an
ordered list `workerTrees i` of mini trees, the trees its executor task sent
into its FIFO result channel before finishing or being cancelled.  When
every CSV of the slice parses and every worker call succeeds this list is
exactly one tree per CSV of the slice in slice order (single-producer,
single-consumer FIFO); any parse or worker failure cancels the run, so the
list is then a strict prefix of the slice ending before the first failing
CSV.  The result-assembly code below is embedded directly from the
source. -/

/-- The `Orchestrator::calculate_task_range(executor_index, total_executors)`
over `total_tasks` CSVs. -/
def calculateTaskRange (executor_index total_executors total_tasks : Nat) : Nat × Nat :=
  let base := total_tasks / total_executors
  let extra := total_tasks % total_executors
  (executor_index * base + min executor_index extra,
    min ((executor_index + 1) * base + min (executor_index + 1) extra) total_tasks)

/-- The placement loop of `create_aggregation_mst` for one worker's results:
`ordered_tree_results[start + i] = Some(res)` for each received tree in
order. -/
def writeTrees : List (Option MerkleSumTree) → Nat → List MerkleSumTree →
    List (Option MerkleSumTree)
  | acc, _, [] => acc
  | acc, start, t :: rest => writeTrees (acc.set start (some t)) (start + 1) rest

/-- The mismatch error message of `create_aggregation_mst`. -/
def mismatchMsg : String := "Mismatch in generated mini tree counts and given CSV counts"

/-- The `Orchestrator::create_aggregation_mst(executor_count)` for
`N_CURRENCIES = C`, `N_BYTES = B`, with the channel pipeline abstracted into
`workerTrees` (see the section comment): spawn `min(executor_count, P)`
workers, collect each worker's trees, place worker `i`'s trees at
consecutive slots starting at `i * (P / executor_count)`, flatten, reject a
total different from `P` with the mismatch error and otherwise build the
aggregation tree (an `executor_count` of zero panics on the division). -/
def createAggregationMst (hs : HashScheme) (C B : Nat) (ccs : List Cryptocurrency)
    (entry_csvs : List String) (executor_count : Nat)
    (workerTrees : Nat → List MerkleSumTree) : RustResult AggregationMerkleSumTree :=
  if executor_count = 0 then .crashed
  else
    let P := entry_csvs.length
    let entries_per_executor := P / executor_count
    let actual_number_of_workers := min executor_count P
    let ordered_tree_results := (List.range actual_number_of_workers).foldl
      (fun acc i => writeTrees acc (i * entries_per_executor) (workerTrees i))
      (List.replicate P (none : Option MerkleSumTree))
    let all_merkle_sum_tree := ordered_tree_results.filterMap id
    if all_merkle_sum_tree.length ≠ P then .err mismatchMsg
    else amstNew hs C B all_merkle_sum_tree ccs

/-! ## Concrete fixtures used by witnesses -/

/-- A concrete computable hash scheme used to instantiate the
parameterized theorems in witnesses: all outputs are canonical field
values. -/
def hsW : HashScheme :=
  { leafHash := fun l => l.foldl fpAdd 1
    midHash := fun l => l.foldl fpAdd 2
    userToFp := fun s => s.data.length % bnP }

/-- A concrete depth-0 mini tree over one entry, well formed for `hsW`. -/
def mstW0 : MerkleSumTree :=
  { root := computeLeaf hsW { username := "alice", balances := [7] }
    nodes := [[computeLeaf hsW { username := "alice", balances := [7] }]]
    depth := 0
    entries := [{ username := "alice", balances := [7] }]
    cryptocurrencies := []
    is_sorted := false }

/-- A second concrete depth-0 mini tree over one entry, well formed for
`hsW`. -/
def mstW1 : MerkleSumTree :=
  { root := computeLeaf hsW { username := "bob", balances := [4] }
    nodes := [[computeLeaf hsW { username := "bob", balances := [4] }]]
    depth := 0
    entries := [{ username := "bob", balances := [4] }]
    cryptocurrencies := []
    is_sorted := false }

/-! ## Helper lemmas -/

/-- The concrete aggregation tree over `[mstW0, mstW1]` that `amstNew`
produces for `hsW`. -/
def amstW : AggregationMerkleSumTree :=
  { root := (layerAt hsW ([mstW0, mstW1].map (·.root)) 1).getD 0 padNode
    nodes := buildLevels hsW ([mstW0, mstW1].map (·.root)) 1
    depth := 1
    cryptocurrencies := []
    mini_trees := [mstW0, mstW1] }

/-- A third concrete depth-0 mini tree. -/
def mstW2 : MerkleSumTree :=
  { root := computeLeaf hsW { username := "carol", balances := [2] }
    nodes := [[computeLeaf hsW { username := "carol", balances := [2] }]]
    depth := 0
    entries := [{ username := "carol", balances := [2] }]
    cryptocurrencies := []
    is_sorted := false }

/-- Start index of executor `i`'s slice over `P` tasks and `N` executors
(the first component of `calculate_task_range`). -/
def sStart (P N i : Nat) : Nat := i * (P / N) + min i (P % N)

/-- Length of the successful prefix of the slice `[s, e)`: the pipeline's
FIFO channels deliver, per worker, at most the trees of the CSVs preceding
the slice's first failure. -/
def sliceOkLen (csvOk : Nat → Bool) (s e : Nat) : Nat :=
  ((List.range' s (e - s)).takeWhile csvOk).length

/-- A concrete wire tree accepted by the response decoders: one node with
hash `0x0d` and balance `0x07`. -/
def jsonTreeW : JsonMerkleSumTree :=
  { root := { hash := "0x0d", balances := ["0x07"] }
    nodes := [[{ hash := "0x0d", balances := ["0x07"] }]]
    depth := 0
    entries := []
    is_sorted := false }

/-- A node holds canonical data for `N_CURRENCIES = C`: hash and balances
are canonical field elements and the balance array has `C` entries. -/
def nodeCanonical (C : Nat) (n : Node) : Prop :=
  n.hash < bnP ∧ n.balances.length = C ∧ ∀ b ∈ n.balances, b < bnP

/-- A mini tree holds canonical data for `N_CURRENCIES = C` (what the
`[Fp; C]`/`[BigUint; C]` arrays of the source types enforce). -/
def mstCanonical (C : Nat) (t : MerkleSumTree) : Prop :=
  nodeCanonical C t.root ∧
  (∀ layer ∈ t.nodes, ∀ n ∈ layer, nodeCanonical C n) ∧
  (∀ e ∈ t.entries, e.balances.length = C)

instance (hs : HashScheme) (t : MerkleSumTree) : Decidable (mstWellFormed hs t) := by
  unfold mstWellFormed
  infer_instance

instance (C : Nat) (t : MerkleSumTree) : Decidable (mstCanonical C t) := by
  unfold mstCanonical nodeCanonical
  infer_instance

/-- The concrete valid mini tree `mstW0` with its sortedness flag set. -/
def mstSortedW : MerkleSumTree := { mstW0 with is_sorted := true }

/-- What the JSON round trip actually returns for `mstSortedW`: the same
tree with `is_sorted` cleared and placeholder currency descriptors. -/
def mstRTW : MerkleSumTree :=
  { mstW0 with cryptocurrencies := [{ name := "Dummy", chain := "ETH" }] }

/-- Default values used with `List.getD` in the proofs below. -/
def dfltMst : MerkleSumTree :=
  { root := padNode, nodes := [], depth := 0, entries := [], cryptocurrencies := []
    is_sorted := false }

/-- Default entry for `List.getD`. -/
def dfltEntry : Entry := { username := "", balances := [] }

/-- The explicit proof object that `AggregationMerkleSumTree::generate_proof`
returns for user index `u` of an aggregation over `minis` (mini depth `d`,
aggregation depth `D`), used to state and verify its correctness. -/
def c1Proof (hs : HashScheme) (minis : List MerkleSumTree) (d D u : Nat) : MerkleProof :=
  { entry := (minis.getD (u / 2 ^ d) dfltMst).entries.getD (u % 2 ^ d) dfltEntry
    root := (layerAt hs (minis.map (·.root)) D).getD 0 padNode
    sibling_leaf_node_hash_preimage := leafPreimage hs
      ((minis.getD (u / 2 ^ d) dfltMst).entries.getD (siblingIndex (u % 2 ^ d)) dfltEntry)
    sibling_middle_node_hash_preimages :=
      ((List.range (d - 1)).map (fun k =>
        midPreimage
          ((layerAt hs ((minis.getD (u / 2 ^ d) dfltMst).entries.map
            (computeLeaf hs)) k).getD
            (2 * siblingIndex ((u % 2 ^ d) >>> (k + 1))) padNode)
          ((layerAt hs ((minis.getD (u / 2 ^ d) dfltMst).entries.map
            (computeLeaf hs)) k).getD
            (2 * siblingIndex ((u % 2 ^ d) >>> (k + 1)) + 1) padNode))) ++
      (midPreimage
          ((layerAt hs ((minis.getD (siblingIndex (u / 2 ^ d)) dfltMst).entries.map
            (computeLeaf hs)) (d - 1)).getD (2 * 0) padNode)
          ((layerAt hs ((minis.getD (siblingIndex (u / 2 ^ d)) dfltMst).entries.map
            (computeLeaf hs)) (d - 1)).getD (2 * 0 + 1) padNode) ::
        (List.range (D - 1)).map (fun m =>
          midPreimage
            ((layerAt hs (minis.map (·.root)) m).getD
              (2 * siblingIndex ((u / 2 ^ d) >>> (m + 1))) padNode)
            ((layerAt hs (minis.map (·.root)) m).getD
              (2 * siblingIndex ((u / 2 ^ d) >>> (m + 1)) + 1) padNode)))
    path_indices :=
      ((List.range d).map (fun ℓ => (((u % 2 ^ d) >>> ℓ) % 2 : Fp))) ++
      ((List.range D).map (fun ℓ => (((u / 2 ^ d) >>> ℓ) % 2 : Fp))) }

/-- A concrete well-formed depth-1 mini tree over two entries. -/
def mstD1a : MerkleSumTree :=
  { root := (layerAt hsW ([{ username := "alice", balances := [7] },
      { username := "bob", balances := [4] }].map (computeLeaf hsW)) 1).getD 0 padNode
    nodes := buildLevels hsW ([{ username := "alice", balances := [7] },
      { username := "bob", balances := [4] }].map (computeLeaf hsW)) 1
    depth := 1
    entries := [{ username := "alice", balances := [7] },
      { username := "bob", balances := [4] }]
    cryptocurrencies := []
    is_sorted := false }

/-- A second concrete well-formed depth-1 mini tree over two entries. -/
def mstD1b : MerkleSumTree :=
  { root := (layerAt hsW ([{ username := "carol", balances := [2] },
      { username := "dave", balances := [1] }].map (computeLeaf hsW)) 1).getD 0 padNode
    nodes := buildLevels hsW ([{ username := "carol", balances := [2] },
      { username := "dave", balances := [1] }].map (computeLeaf hsW)) 1
    depth := 1
    entries := [{ username := "carol", balances := [2] },
      { username := "dave", balances := [1] }]
    cryptocurrencies := []
    is_sorted := false }

/-- The aggregation tree `amstNew` builds over the single mini tree
`mstD1a` (`K = 1`). -/
def amstK1 : AggregationMerkleSumTree :=
  { root := (layerAt hsW ([mstD1a].map (·.root)) 0).getD 0 padNode
    nodes := buildLevels hsW ([mstD1a].map (·.root)) 0
    depth := 0
    cryptocurrencies := []
    mini_trees := [mstD1a] }

/-- The aggregation tree `amstNew` builds over `[mstD1a, mstD1b]`
(`K = 2`). -/
def amstK2 : AggregationMerkleSumTree :=
  { root := (layerAt hsW ([mstD1a, mstD1b].map (·.root)) 1).getD 0 padNode
    nodes := buildLevels hsW ([mstD1a, mstD1b].map (·.root)) 1
    depth := 1
    cryptocurrencies := []
    mini_trees := [mstD1a, mstD1b] }

theorem pairLevel_ne_nil (hs : HashScheme) {l : List Node} (h : l ≠ []) :
    pairLevel hs l ≠ [] := by
  match l with
  | [] => exact absurd rfl h
  | [a] => simp [pairLevel]
  | a :: b :: rest => simp [pairLevel]

theorem layerAt_ne_nil (hs : HashScheme) {l : List Node} (h : l ≠ []) (ℓ : Nat) :
    layerAt hs l ℓ ≠ [] := by
  induction ℓ generalizing l with
  | zero => exact h
  | succ n ih =>
    show (pairLevel hs)^[n + 1] l ≠ []
    rw [Function.iterate_succ_apply]
    exact ih (pairLevel_ne_nil hs h)

theorem get?_zero_ne_nil {α : Type} {l : List α} (d : α) (h : l ≠ []) :
    l.get? 0 = some (l.getD 0 d) := by
  cases l with
  | nil => exact absurd rfl h
  | cons a t => rfl

theorem buildMerkleTreeFromLeaves_ok (hs : HashScheme) {leaves : List Node}
    (depth : Nat) (h : leaves ≠ []) :
    buildMerkleTreeFromLeaves hs leaves depth =
      .ok ((layerAt hs leaves depth).getD 0 padNode, buildLevels hs leaves depth) := by
  unfold buildMerkleTreeFromLeaves
  rw [get?_zero_ne_nil padNode (layerAt_ne_nil hs h depth)]

theorem ceilLog2F_eq_clog (fuel : Nat) : ∀ n : Nat, n ≤ fuel →
    ceilLog2F fuel n = Nat.clog 2 n := by
  induction fuel with
  | zero =>
    intro n hn
    have hn0 : n = 0 := Nat.le_zero.mp hn
    subst hn0
    rw [Nat.clog_zero_right]
    rfl
  | succ fuel ih =>
    intro n hn
    show (if n ≤ 1 then 0 else ceilLog2F fuel ((n + 1) / 2) + 1) = Nat.clog 2 n
    by_cases h1 : n ≤ 1
    · rw [if_pos h1, Nat.clog_of_right_le_one h1]
    · rw [if_neg h1]
      have h2 : 2 ≤ n := Nat.lt_of_not_le h1
      have hlt : (n + 1) / 2 < n := by
        rw [Nat.div_lt_iff_lt_mul (by norm_num : 0 < 2)]
        omega
      rw [ih _ (by omega), Nat.clog_of_two_le (by norm_num) h2]
      norm_num

theorem ceilLog2_eq_clog (n : Nat) : ceilLog2 n = Nat.clog 2 n :=
  ceilLog2F_eq_clog n n (Nat.le_refl n)

theorem amstNew_eq_ok (hs : HashScheme) (C B : Nat) (m0 : MerkleSumTree)
    (rest : List MerkleSumTree) (ccs : List Cryptocurrency) (d : Nat)
    (hd : ∀ m ∈ m0 :: rest, m.depth = d)
    (hnov : (balancesAcc C ((m0 :: rest).map (·.root))).any
      (fun b => decide (2 ^ (8 * B) ≤ b)) = false) :
    amstNew hs C B (m0 :: rest) ccs = .ok
      { root := (layerAt hs ((m0 :: rest).map (·.root))
          (ceilLog2 ((m0 :: rest).length))).getD 0 padNode
        nodes := buildLevels hs ((m0 :: rest).map (·.root))
          (ceilLog2 ((m0 :: rest).length))
        depth := ceilLog2 ((m0 :: rest).length)
        cryptocurrencies := ccs
        mini_trees := m0 :: rest } := by
  have hall : ((m0 :: rest).all (fun m => decide (m.depth = m0.depth))) = true := by
    rw [List.all_eq_true]
    intro m hm
    rw [decide_eq_true_eq, hd m hm, hd m0 (List.mem_cons_self m0 rest)]
  have hne : ((m0 :: rest).map (·.root)) ≠ [] := by simp
  unfold amstNew
  simp only [List.isEmpty_cons, List.head?_cons, Bool.false_eq_true, if_false]
  rw [if_pos hall, if_neg (by intro hcon; rw [hnov] at hcon; exact Bool.false_ne_true hcon)]
  rw [buildMerkleTreeFromLeaves_ok hs _ hne]
  simp [List.length_map]

theorem getD_zipWith_fpAdd {l1 l2 : List Fp} {i : Nat}
    (h1 : i < l1.length) (h2 : i < l2.length) :
    (List.zipWith fpAdd l1 l2).getD i 0 = fpAdd (l1.getD i 0) (l2.getD i 0) := by
  induction l1 generalizing l2 i with
  | nil => simp at h1
  | cons a t ih =>
    cases l2 with
    | nil => simp at h2
    | cons b u =>
      cases i with
      | zero => rfl
      | succ j =>
        simp only [List.zipWith_cons_cons, List.getD_cons_succ]
        exact ih (Nat.lt_of_succ_lt_succ h1) (Nat.lt_of_succ_lt_succ h2)

theorem balancesAcc_foldl_length (C : Nat) (roots : List Node) (acc : List Fp)
    (hacc : acc.length = C) (hb : ∀ r ∈ roots, r.balances.length = C) :
    (roots.foldl (fun acc r => List.zipWith fpAdd acc r.balances) acc).length = C := by
  induction roots generalizing acc with
  | nil => exact hacc
  | cons r rest ih =>
    simp only [List.foldl_cons]
    have hlen : (List.zipWith fpAdd acc r.balances).length = C := by
      rw [List.length_zipWith, hacc, hb r (List.mem_cons_self r rest)]
      exact Nat.min_self C
    exact ih _ hlen (fun r' hr' => hb r' (List.mem_cons_of_mem r hr'))

theorem balancesAcc_length (C : Nat) (roots : List Node)
    (hb : ∀ r ∈ roots, r.balances.length = C) :
    (balancesAcc C roots).length = C :=
  balancesAcc_foldl_length C roots _ (List.length_replicate C 0) hb

theorem getD_replicate_self {α : Type} (n i : Nat) (a : α) :
    (List.replicate n a).getD i a = a := by
  induction n generalizing i with
  | zero => rfl
  | succ m ih =>
    cases i with
    | zero => rfl
    | succ j => exact ih j

/-- The accumulated balance at currency index `i` equals the per-index sum
over the roots. -/
theorem balancesAcc_getD (C : Nat) (roots : List Node) (i : Nat) (hi : i < C)
    (hb : ∀ r ∈ roots, r.balances.length = C) :
    (balancesAcc C roots).getD i 0 =
      (roots.map (fun r => r.balances.getD i 0)).foldl fpAdd 0 := by
  have main : ∀ (rs : List Node) (acc : List Fp), acc.length = C →
      (∀ r ∈ rs, r.balances.length = C) →
      (rs.foldl (fun acc r => List.zipWith fpAdd acc r.balances) acc).getD i 0 =
        (rs.map (fun r => r.balances.getD i 0)).foldl fpAdd (acc.getD i 0) := by
    intro rs
    induction rs with
    | nil => intro acc _ _; rfl
    | cons r rest ih =>
      intro acc hacc hrs
      simp only [List.foldl_cons, List.map_cons]
      have hlen : (List.zipWith fpAdd acc r.balances).length = C := by
        rw [List.length_zipWith, hacc, hrs r (List.mem_cons_self r rest)]
        exact Nat.min_self C
      rw [ih _ hlen (fun r' hr' => hrs r' (List.mem_cons_of_mem r hr'))]
      have h1 : i < acc.length := by rw [hacc]; exact hi
      have h2 : i < r.balances.length := by
        rw [hrs r (List.mem_cons_self r rest)]; exact hi
      rw [getD_zipWith_fpAdd h1 h2]
  have hrepl : (List.replicate C (0 : Fp)).getD i 0 = 0 := getD_replicate_self C i 0
  calc (balancesAcc C roots).getD i 0
      = (roots.map (fun r => r.balances.getD i 0)).foldl fpAdd
          ((List.replicate C (0 : Fp)).getD i 0) :=
        main roots _ (List.length_replicate C 0) hb
    _ = (roots.map (fun r => r.balances.getD i 0)).foldl fpAdd 0 := by rw [hrepl]

theorem getD_mem_of_lt {α : Type} {l : List α} {i : Nat} (d : α) (h : i < l.length) :
    l.getD i d ∈ l := by
  induction l generalizing i with
  | nil => simp at h
  | cons a t ih =>
    cases i with
    | zero => exact List.mem_cons_self a t
    | succ j => exact List.mem_cons_of_mem a (ih (Nat.lt_of_succ_lt_succ h))

/-- C10: called with an empty `mini_trees` vector, `AggregationMerkleSumTree::new`
returns the error "Empty mini tree inputs" (no panic, no tree), for every
cryptocurrencies argument. -/
theorem c10_empty_inputs_error (hs : HashScheme) (C B : Nat) (ccs : List Cryptocurrency) :
    amstNew hs C B [] ccs = .err emptyMsg := rfl

/-- C6: for every non-empty vector of `K` equal-depth mini trees that passes
the balance range check, `AggregationMerkleSumTree::new` succeeds and the
resulting depth is exactly `ceil(log2 K)` (0 for `K = 1`). -/
theorem c6_new_succeeds_depth_clog (hs : HashScheme) (C B : Nat)
    (minis : List MerkleSumTree) (ccs : List Cryptocurrency) (d : Nat)
    (hne : minis ≠ [])
    (hd : ∀ m ∈ minis, m.depth = d)
    (hnov : ∀ b ∈ balancesAcc C (minis.map (·.root)), b < 2 ^ (8 * B)) :
    ∃ t, amstNew hs C B minis ccs = .ok t ∧ t.depth = Nat.clog 2 minis.length := by
  cases minis with
  | nil => exact absurd rfl hne
  | cons m0 rest =>
    refine ⟨_, amstNew_eq_ok hs C B m0 rest ccs d hd ?_, ceilLog2_eq_clog _⟩
    rw [List.any_eq_false]
    intro b hb
    simp only [decide_eq_true_eq]
    exact Nat.not_le.mpr (hnov b hb)

/-- Witness for C6 at a concrete input: one depth-0 mini tree, so `K = 1`
and the aggregation depth is `ceil(log2 1) = 0`. -/
theorem c6_new_succeeds_depth_clog_witness :
    ∃ t, amstNew hsW 1 1 [mstW0] [] = .ok t ∧ t.depth = Nat.clog 2 [mstW0].length :=
  c6_new_succeeds_depth_clog hsW 1 1 [mstW0] [] 0 (by decide)
    (by decide) (by decide)

/-- C3: `AggregationMerkleSumTree::new` returns the overflow error exactly
when, for some currency index `i`, the field-element sum over all mini-tree
roots of `root.balances[i]`, read as an unsigned integer, is at least
`2^(8·N_BYTES)`. -/
theorem c3_overflow_error_iff (hs : HashScheme) (C B : Nat)
    (minis : List MerkleSumTree) (ccs : List Cryptocurrency) (d : Nat)
    (hd : ∀ m ∈ minis, m.depth = d)
    (hb : ∀ m ∈ minis, m.root.balances.length = C) :
    amstNew hs C B minis ccs = .err overflowMsg ↔
      ∃ i, i < C ∧
        2 ^ (8 * B) ≤ (minis.map (fun m => m.root.balances.getD i 0)).foldl fpAdd 0 := by
  have hb' : ∀ r ∈ minis.map (·.root), r.balances.length = C := by
    intro r hr
    obtain ⟨m, hm, rfl⟩ := List.mem_map.mp hr
    exact hb m hm
  have hacclen : (balancesAcc C (minis.map (·.root))).length = C :=
    balancesAcc_length C _ hb'
  have hsum : ∀ i, i < C →
      (balancesAcc C (minis.map (·.root))).getD i 0 =
        (minis.map (fun m => m.root.balances.getD i 0)).foldl fpAdd 0 := by
    intro i hi
    rw [balancesAcc_getD C _ i hi hb', List.map_map]
    rfl
  cases minis with
  | nil =>
    constructor
    · intro hcon
      rw [show amstNew hs C B [] ccs = .err emptyMsg from rfl] at hcon
      exact absurd (RustResult.err.inj hcon) (by decide)
    · rintro ⟨i, hi, hile⟩
      simp only [List.map_nil, List.foldl_nil] at hile
      exact absurd hile (Nat.not_le.mpr (Nat.pos_pow_of_pos _ (by norm_num)))
  | cons m0 rest =>
    by_cases hov : ((balancesAcc C ((m0 :: rest).map (·.root))).any
        (fun b => decide (2 ^ (8 * B) ≤ b))) = true
    · obtain ⟨b, hbmem, hble⟩ := List.any_eq_true.mp hov
      obtain ⟨⟨i, hilt⟩, hget⟩ := List.mem_iff_get.mp hbmem
      have hiC : i < C := hacclen ▸ hilt
      constructor
      · intro _
        refine ⟨i, hiC, ?_⟩
        rw [← hsum i hiC, List.getD_eq_get _ _ hilt, hget]
        exact of_decide_eq_true hble
      · intro _
        unfold amstNew
        simp only [List.isEmpty_cons, List.head?_cons, Bool.false_eq_true, if_false]
        rw [if_pos, if_pos hov]
        rw [List.all_eq_true]
        intro m hm
        rw [decide_eq_true_eq, hd m hm, hd m0 (List.mem_cons_self m0 rest)]
    · have hov' := Bool.eq_false_iff.mpr hov
      constructor
      · intro hcon
        rw [amstNew_eq_ok hs C B m0 rest ccs d hd hov'] at hcon
        exact absurd hcon (by simp)
      · rintro ⟨i, hi, hile⟩
        exfalso
        rw [← hsum i hi] at hile
        have hilen : i < (balancesAcc C ((m0 :: rest).map (·.root))).length := by
          rw [hacclen]; exact hi
        have hmem : (balancesAcc C ((m0 :: rest).map (·.root))).getD i 0 ∈
            balancesAcc C ((m0 :: rest).map (·.root)) :=
          getD_mem_of_lt 0 hilen
        have := List.any_eq_false.mp hov' _ hmem
        rw [decide_eq_true_eq] at this
        exact this hile

/-- Witness for C3 at a concrete input: a single mini tree whose root
balance 300 is at least `2^8`, so `new` returns the overflow error. -/
theorem c3_overflow_error_iff_witness :
    amstNew hsW 1 1
      [{ root := { hash := 0, balances := [300] }, nodes := [], depth := 0,
         entries := [], cryptocurrencies := [], is_sorted := false }] [] =
      .err overflowMsg :=
  (c3_overflow_error_iff hsW 1 1 _ [] 0 (by decide) (by decide)).mpr
    ⟨0, by decide, by decide⟩

theorem amstNew_ok_mini_trees {hs : HashScheme} {C B : Nat}
    {minis : List MerkleSumTree} {ccs : List Cryptocurrency}
    {t : AggregationMerkleSumTree}
    (hok : amstNew hs C B minis ccs = .ok t) : t.mini_trees = minis := by
  unfold amstNew at hok
  cases minis with
  | nil => simp at hok
  | cons m0 rest =>
    simp only [List.isEmpty_cons, Bool.false_eq_true, if_false, List.head?_cons] at hok
    split at hok
    · split at hok
      · exact absurd hok (by simp)
      · split at hok
        next root nodes heq =>
          rw [RustResult.ok.inj hok.symm]
        next m heq => exact absurd hok (by simp)
        next heq => exact absurd hok (by simp)
    · exact absurd hok (by simp)

/-- C5: for every aggregation tree built from `K` mini trees of equal depth
`d` and every user index `u < K·2^d`, `get_entry(u)` delegates to
`mini_trees[u / 2^d].get_entry(u mod 2^d)`. -/
theorem c5_get_entry_delegates (hs : HashScheme) (C B : Nat)
    (minis : List MerkleSumTree) (ccs : List Cryptocurrency) (d : Nat)
    (t : AggregationMerkleSumTree) (u : Nat)
    (hok : amstNew hs C B minis ccs = .ok t)
    (hd : ∀ m ∈ minis, m.depth = d)
    (hu : u < minis.length * 2 ^ d) :
    ∃ mt, minis.get? (u / 2 ^ d) = some mt ∧
      amstGetEntry t u = mstGetEntry mt (u % 2 ^ d) := by
  have hmt := amstNew_ok_mini_trees hok
  cases minis with
  | nil => simp at hu
  | cons m0 rest =>
    have hd0 : m0.depth = d := hd m0 (List.mem_cons_self _ _)
    have hdiv : u / 2 ^ d < (m0 :: rest).length :=
      (Nat.div_lt_iff_lt_mul (Nat.pos_pow_of_pos d (by norm_num))).mpr hu
    refine ⟨(m0 :: rest).get ⟨u / 2 ^ d, hdiv⟩, List.get?_eq_get hdiv, ?_⟩
    unfold amstGetEntry amstGetEntryLocation
    rw [hmt]
    simp only [List.head?_cons, hd0, List.get?_eq_get hdiv]

/-- Witness for C5 at a concrete input: two depth-0 mini trees, user index 1
lands in the second mini tree. -/
theorem c5_get_entry_delegates_witness :
    ∃ mt, [mstW0, mstW1].get? (1 / 2 ^ 0) = some mt ∧
      amstGetEntry amstW 1 = mstGetEntry mt (1 % 2 ^ 0) :=
  c5_get_entry_delegates hsW 1 1 [mstW0, mstW1] [] 0 amstW 1 (by decide) (by decide)
    (by decide)

/-- C2 (failing run): with 3 CSVs and 2 executors, every CSV parsed and
every worker call succeeding — worker 0 returning the subtrees of its slice
`[0, 2)` in order and worker 1 the subtree of its slice `[2, 3)` — the
assembly places worker 1's tree at slot `1·(3/2) = 1` instead of slot 2,
colliding with worker 0's second tree and leaving slot 2 empty, so
`create_aggregation_mst` returns the mismatch error instead of the ordered
aggregation tree the claim promises. -/
theorem c2_placement_collision_eval :
    createAggregationMst hsW 1 1 [] ["a.csv", "b.csv", "c.csv"] 2
      (fun i => if i = 0 then [mstW0, mstW1] else [mstW2]) = .err mismatchMsg := by
  decide

/-! ## Slice partition and counting lemmas for the orchestrator -/

theorem calculateTaskRange_fst (i N P : Nat) :
    (calculateTaskRange i N P).1 = sStart P N i := rfl

theorem calculateTaskRange_snd (i N P : Nat) :
    (calculateTaskRange i N P).2 = min (sStart P N (i + 1)) P := rfl

theorem sStart_zero (P N : Nat) : sStart P N 0 = 0 := by simp [sStart]

theorem sStart_mono_succ (P N i : Nat) : sStart P N i ≤ sStart P N (i + 1) :=
  Nat.add_le_add (Nat.mul_le_mul_right _ (Nat.le_succ i))
    (min_le_min (Nat.le_succ i) (Nat.le_refl _))

theorem sStart_mono (P N : Nat) : ∀ {i j : Nat}, i ≤ j → sStart P N i ≤ sStart P N j := by
  intro i j hij
  induction j with
  | zero => cases Nat.le_zero.mp hij; exact Nat.le_refl _
  | succ k ih =>
    rcases Nat.lt_or_ge i (k + 1) with hlt | hge
    · exact Nat.le_trans (ih (Nat.lt_succ_iff.mp hlt)) (sStart_mono_succ P N k)
    · cases Nat.le_antisymm hij hge; exact Nat.le_refl _

theorem sStart_last (P N : Nat) (hN : N ≠ 0) : sStart P N (min N P) = P := by
  rcases le_or_lt N P with hNP | hPN
  · rw [Nat.min_eq_left hNP]
    unfold sStart
    rw [Nat.min_eq_right (Nat.le_of_lt (Nat.mod_lt P (Nat.pos_of_ne_zero hN)))]
    exact Nat.div_add_mod P N
  · rw [Nat.min_eq_right (Nat.le_of_lt hPN)]
    unfold sStart
    rw [Nat.div_eq_of_lt hPN, Nat.mod_eq_of_lt hPN, Nat.mul_zero, Nat.min_self]
    omega

theorem slice_end_eq (P N i : Nat) (hN : N ≠ 0) (hi : i < min N P) :
    (calculateTaskRange i N P).2 = sStart P N (i + 1) := by
  rw [calculateTaskRange_snd]
  exact Nat.min_eq_left (by
    calc sStart P N (i + 1) ≤ sStart P N (min N P) := sStart_mono P N hi
      _ = P := sStart_last P N hN)

theorem exists_slice_of_lt (P N : Nat) :
    ∀ (k : Nat) {j : Nat}, j < sStart P N k →
      ∃ i, i < k ∧ sStart P N i ≤ j ∧ j < sStart P N (i + 1) := by
  intro k
  induction k with
  | zero => intro j hj; rw [sStart_zero] at hj; exact absurd hj (Nat.not_lt_zero j)
  | succ m ih =>
    intro j hj
    rcases Nat.lt_or_ge j (sStart P N m) with hlt | hge
    · obtain ⟨i, hik, hle, hlt'⟩ := ih hlt
      exact ⟨i, Nat.lt_succ_of_lt hik, hle, hlt'⟩
    · exact ⟨m, Nat.lt_succ_self m, hge, hj⟩

theorem sliceOkLen_le (csvOk : Nat → Bool) (s e : Nat) :
    sliceOkLen csvOk s e ≤ e - s := by
  calc ((List.range' s (e - s)).takeWhile csvOk).length
      ≤ (List.range' s (e - s)).length := (List.takeWhile_sublist csvOk).length_le
    _ = e - s := by simp

theorem sliceOkLen_lt_of_fail (csvOk : Nat → Bool) (s e j : Nat)
    (hsj : s ≤ j) (hje : j < e) (hfail : csvOk j = false) :
    sliceOkLen csvOk s e < e - s := by
  rcases Nat.lt_or_ge (sliceOkLen csvOk s e) (e - s) with h | h
  · exact h
  · exfalso
    unfold sliceOkLen at h
    have hlen : ((List.range' s (e - s)).takeWhile csvOk).length =
        (List.range' s (e - s)).length := by
      have h1 : ((List.range' s (e - s)).takeWhile csvOk).length ≤
          (List.range' s (e - s)).length := (List.takeWhile_sublist csvOk).length_le
      have h2 : (List.range' s (e - s)).length = e - s := by simp
      omega
    have hpre : List.IsPrefix ((List.range' s (e - s)).takeWhile csvOk)
        (List.range' s (e - s)) := List.takeWhile_prefix csvOk
    have heq : (List.range' s (e - s)).takeWhile csvOk = List.range' s (e - s) :=
      hpre.eq_of_length hlen
    have hjmem : j ∈ List.range' s (e - s) := by
      rw [List.mem_range'_1]
      exact ⟨hsj, by omega⟩
    rw [← heq] at hjmem
    have := List.mem_takeWhile_imp hjmem
    rw [hfail] at this
    exact Bool.false_ne_true this

theorem filterMap_set_some_le {α : Type} (l : List (Option α)) (i : Nat) (x : α) :
    ((l.set i (some x)).filterMap id).length ≤ (l.filterMap id).length + 1 := by
  induction l generalizing i with
  | nil => simp
  | cons a t ih =>
    cases i with
    | zero =>
      cases a with
      | none => simp [List.filterMap_cons]
      | some b => simp [List.filterMap_cons]
    | succ k =>
      cases a with
      | none =>
        simp only [List.set_cons_succ, List.filterMap_cons, id]
        exact ih k
      | some b =>
        simp only [List.set_cons_succ, List.filterMap_cons, id, List.length_cons]
        exact Nat.succ_le_succ (ih k)

theorem writeTrees_count (ts : List MerkleSumTree) :
    ∀ (acc : List (Option MerkleSumTree)) (s : Nat),
      ((writeTrees acc s ts).filterMap id).length ≤
        (acc.filterMap id).length + ts.length := by
  induction ts with
  | nil => intro acc s; exact Nat.le_add_right _ 0
  | cons t rest ih =>
    intro acc s
    calc ((writeTrees (acc.set s (some t)) (s + 1) rest).filterMap id).length
        ≤ ((acc.set s (some t)).filterMap id).length + rest.length := ih _ _
      _ ≤ ((acc.filterMap id).length + 1) + rest.length :=
          Nat.add_le_add_right (filterMap_set_some_le acc s t) _
      _ = (acc.filterMap id).length + (rest.length + 1) := by omega

theorem foldl_writeTrees_count (epe : Nat) (workerTrees : Nat → List MerkleSumTree) :
    ∀ (is : List Nat) (acc : List (Option MerkleSumTree)),
      (((is.foldl (fun acc i => writeTrees acc (i * epe) (workerTrees i)) acc)).filterMap
          id).length ≤
        (acc.filterMap id).length + (is.map (fun i => (workerTrees i).length)).sum := by
  intro is
  induction is with
  | nil => intro acc; exact Nat.le_add_right _ 0
  | cons i rest ih =>
    intro acc
    calc ((List.foldl _ (writeTrees acc (i * epe) (workerTrees i)) rest).filterMap id).length
        ≤ ((writeTrees acc (i * epe) (workerTrees i)).filterMap id).length +
            (rest.map (fun i => (workerTrees i).length)).sum := ih _
      _ ≤ ((acc.filterMap id).length + (workerTrees i).length) +
            (rest.map (fun i => (workerTrees i).length)).sum :=
          Nat.add_le_add_right (writeTrees_count _ acc _) _
      _ = (acc.filterMap id).length +
            ((i :: rest).map (fun i => (workerTrees i).length)).sum := by
          simp [List.sum_cons]; omega

theorem filterMap_replicate_none {α : Type} (P : Nat) :
    ((List.replicate P (none : Option α)).filterMap id).length = 0 := by
  induction P with
  | zero => rfl
  | succ k ih => simp [List.replicate_succ, List.filterMap_cons, ih]

theorem telescoping_sStart (P N : Nat) : ∀ (k : Nat),
    ((List.range k).map (fun i => sStart P N (i + 1) - sStart P N i)).sum =
      sStart P N k := by
  intro k
  induction k with
  | zero => rw [sStart_zero]; rfl
  | succ m ih =>
    rw [List.range_succ, List.map_append, List.sum_append, ih]
    simp only [List.map_cons, List.map_nil, List.sum_cons, List.sum_nil]
    have := sStart_mono_succ P N m
    omega

/-- C7: whenever any CSV of the run fails (parse failure or worker failure
— `csvOk j = false` for its index), so that by the cancellation semantics
every worker delivers at most the trees of its slice's successful prefix,
`create_aggregation_mst` returns the mismatch error and never a partial
aggregation tree. -/
theorem c7_failure_yields_mismatch (hs : HashScheme) (C B : Nat)
    (ccs : List Cryptocurrency) (entry_csvs : List String) (N : Nat)
    (workerTrees : Nat → List MerkleSumTree) (csvOk : Nat → Bool)
    (hN : N ≠ 0)
    (hbound : ∀ i, i < min N entry_csvs.length →
      (workerTrees i).length ≤
        sliceOkLen csvOk (calculateTaskRange i N entry_csvs.length).1
          (calculateTaskRange i N entry_csvs.length).2)
    (hfail : ∃ j, j < entry_csvs.length ∧ csvOk j = false) :
    createAggregationMst hs C B ccs entry_csvs N workerTrees = .err mismatchMsg := by
  obtain ⟨j, hjP, hjfail⟩ := hfail
  have hjlt : j < sStart entry_csvs.length N (min N entry_csvs.length) := by
    rw [sStart_last _ N hN]; exact hjP
  obtain ⟨i0, hi0, hs0, he0⟩ := exists_slice_of_lt entry_csvs.length N _ hjlt
  have hcap_le : ∀ i ∈ List.range (min N entry_csvs.length),
      (workerTrees i).length ≤
        sliceOkLen csvOk (sStart entry_csvs.length N i) (sStart entry_csvs.length N (i + 1)) := by
    intro i hi
    have hilt := List.mem_range.mp hi
    have hb := hbound i hilt
    rwa [calculateTaskRange_fst, slice_end_eq _ N i hN hilt] at hb
  have hcap_lt : sliceOkLen csvOk (sStart entry_csvs.length N i0)
      (sStart entry_csvs.length N (i0 + 1)) <
      sStart entry_csvs.length N (i0 + 1) - sStart entry_csvs.length N i0 :=
    sliceOkLen_lt_of_fail csvOk _ _ j hs0 he0 hjfail
  have hsum1 : ((List.range (min N entry_csvs.length)).map
        (fun i => (workerTrees i).length)).sum ≤
      ((List.range (min N entry_csvs.length)).map (fun i =>
        sliceOkLen csvOk (sStart entry_csvs.length N i)
          (sStart entry_csvs.length N (i + 1)))).sum :=
    List.sum_le_sum hcap_le
  have hsum2 : ((List.range (min N entry_csvs.length)).map (fun i =>
        sliceOkLen csvOk (sStart entry_csvs.length N i)
          (sStart entry_csvs.length N (i + 1)))).sum <
      ((List.range (min N entry_csvs.length)).map (fun i =>
        sStart entry_csvs.length N (i + 1) - sStart entry_csvs.length N i)).sum :=
    List.sum_lt_sum _ _ (fun i _ => sliceOkLen_le csvOk _ _)
      ⟨i0, List.mem_range.mpr hi0, hcap_lt⟩
  have hsum3 : ((List.range (min N entry_csvs.length)).map (fun i =>
        sStart entry_csvs.length N (i + 1) - sStart entry_csvs.length N i)).sum =
      entry_csvs.length := by
    rw [telescoping_sStart _ N _, sStart_last _ N hN]
  have hcount : (((List.range (min N entry_csvs.length)).foldl
      (fun acc i => writeTrees acc (i * (entry_csvs.length / N)) (workerTrees i))
      (List.replicate entry_csvs.length (none : Option MerkleSumTree))).filterMap
        id).length < entry_csvs.length := by
    have hc := foldl_writeTrees_count (entry_csvs.length / N) workerTrees
      (List.range (min N entry_csvs.length))
      (List.replicate entry_csvs.length none)
    rw [filterMap_replicate_none] at hc
    omega
  unfold createAggregationMst
  rw [if_neg hN, if_pos (Nat.ne_of_lt hcount)]

/-- Witness for C7 at a concrete input: two CSVs, two workers, the second
CSV fails, worker 0 delivers its one tree and worker 1 nothing; the run
returns the mismatch error. -/
theorem c7_failure_yields_mismatch_witness :
    createAggregationMst hsW 1 1 [] ["x.csv", "y.csv"] 2
      (fun i => if i = 0 then [mstW0] else []) = .err mismatchMsg :=
  c7_failure_yields_mismatch hsW 1 1 [] ["x.csv", "y.csv"] 2
    (fun i => if i = 0 then [mstW0] else []) (fun j => j == 0)
    (by decide) (by decide) ⟨1, by decide, by decide⟩

/-- C4 (counterexample): on a network whose first attempt fails at the
transport level and whose second attempt would succeed, the claimed policy
(retry transport failures up to 5 attempts, modelled by
`generateTreeSpecRetry`) recovers and returns the tree, but the actual
`Executor::generate_tree` surfaces the transport error immediately: the
source contains no retry at all. -/
theorem c4_counterexample :
    executorGenerateTree 1 [{ username := "alice", balances := ["7"] }]
        [.sendErr "connection refused", .response (some jsonTreeW)] =
      .err "connection refused" ∧
    generateTreeSpecRetry 1 [{ username := "alice", balances := ["7"] }] 5
        [.sendErr "connection refused", .response (some jsonTreeW)] =
      .ok { root := { hash := 13, balances := [7] }
            nodes := [[{ hash := 13, balances := [7] }]]
            depth := 0
            entries := [{ username := "alice", balances := [7] }]
            cryptocurrencies := []
            is_sorted := false } := by
  constructor
  · rfl
  · decide

/-- C4 (amended): `Executor::generate_tree` performs exactly one HTTP
attempt per batch — its result depends only on the first attempt's outcome,
and a transport-level failure is surfaced immediately just like an
application-level one. -/
theorem c4_amended_single_attempt (C : Nat) (json_entries : List JsonEntry)
    (first : HttpAttempt) (rest : List HttpAttempt) (m : String) :
    executorGenerateTree C json_entries (first :: rest) =
      executorGenerateTree C json_entries [first] ∧
    executorGenerateTree C json_entries (.sendErr m :: rest) = .err m := by
  constructor
  · cases first with
    | sendErr m' => rfl
    | response d => cases d <;> rfl
  · rfl

/-- C8: the worker's `POST /` handler panics (it does not answer with an
error response) on a request whose balance string is not decimal: the
`unwrap` on `BigUint::parse` crashes the handler task. -/
theorem c8_handler_panics_on_bad_balance :
    createMst hsW 2 [{ username := "alice", balances := ["abc", "0"] }] = .crashed := by
  decide

/-! ## Radix round-trip lemmas -/

theorem digitVal_digitChar_16 : ∀ d, d < 16 → digitVal 16 (digitChar d) = some d := by
  decide

theorem digitVal_digitChar_10 : ∀ d, d < 10 → digitVal 10 (digitChar d) = some d := by
  decide

theorem foldl_parse_toDigitsF (b : Nat) (hb : 2 ≤ b)
    (hinv : ∀ d, d < b → digitVal b (digitChar d) = some d) :
    ∀ (fuel : Nat), ∀ n a : Nat, n ≤ fuel →
      List.foldl (parseDigitStep b) (some a) ((toDigitsLEF fuel b n).reverse) =
        some (a * b ^ (toDigitsLEF fuel b n).length + n) := by
  intro fuel
  induction fuel with
  | zero =>
    intro n a hn
    have hn0 : n = 0 := Nat.le_zero.mp hn
    subst hn0
    simp [toDigitsLEF]
  | succ fuel ih =>
    intro n a hn
    by_cases h0 : n = 0
    · subst h0
      simp [toDigitsLEF]
    · have hcond : ¬(n = 0 ∨ b < 2) := by
        push_neg
        exact ⟨h0, hb⟩
      show List.foldl (parseDigitStep b) (some a)
          ((toDigitsLEF (fuel + 1) b n).reverse) = _
      rw [show toDigitsLEF (fuel + 1) b n =
        digitChar (n % b) :: toDigitsLEF fuel b (n / b) by
          rw [toDigitsLEF, if_neg hcond]]
      rw [List.reverse_cons, List.foldl_append]
      have hdiv : n / b ≤ fuel := by
        have := Nat.div_lt_self (Nat.pos_of_ne_zero h0) hb
        omega
      rw [ih (n / b) a hdiv]
      simp only [List.foldl_cons, List.foldl_nil, parseDigitStep]
      rw [hinv (n % b) (Nat.mod_lt n (by omega))]
      have hmod := Nat.div_add_mod n b
      simp only [List.length_cons, Option.some.injEq]
      calc b * (a * b ^ (toDigitsLEF fuel b (n / b)).length + n / b) + n % b
          = a * (b ^ (toDigitsLEF fuel b (n / b)).length * b) +
              (b * (n / b) + n % b) := by ring
        _ = a * b ^ ((toDigitsLEF fuel b (n / b)).length + 1) + n := by
            rw [hmod, pow_succ]

theorem parse_zeros (b : Nat) (hz : digitVal b '0' = some 0) :
    ∀ k, List.foldl (parseDigitStep b) (some 0) (List.replicate k '0') = some 0 := by
  intro k
  induction k with
  | zero => rfl
  | succ m ih =>
    rw [List.replicate_succ, List.foldl_cons]
    have hstep : parseDigitStep b (some 0) '0' = some 0 := by
      simp [parseDigitStep, hz]
    rw [hstep]
    exact ih

theorem toDigitsLEF_ne_nil (b : Nat) (hb : 2 ≤ b) {n : Nat} (h0 : n ≠ 0) (fuel : Nat)
    (hn : n ≤ fuel) : toDigitsLEF fuel b n ≠ [] := by
  cases fuel with
  | zero => exact absurd (Nat.le_zero.mp hn) h0
  | succ m =>
    rw [toDigitsLEF, if_neg (by push_neg; exact ⟨h0, hb⟩)]
    exact List.cons_ne_nil _ _

/-- Hex serialization round-trips through `parse_fp_from_hex`. -/
theorem parseFpFromHex_fpToHexString (v : Fp) :
    parseFpFromHex (fpToHexString v) = .ok (v % bnP) := by
  have hdata : (fpToHexString v).data.drop 2 =
      List.replicate (64 - ((toDigitsLE 16 v).reverse).length) '0' ++
        (toDigitsLE 16 v).reverse := rfl
  unfold parseFpFromHex
  rw [hdata]
  have hfold : List.foldl (parseDigitStep 16) (some 0)
      (List.replicate (64 - ((toDigitsLE 16 v).reverse).length) '0' ++
        (toDigitsLE 16 v).reverse) = some v := by
    rw [List.foldl_append, parse_zeros 16 (by decide)]
    have := foldl_parse_toDigitsF 16 (by norm_num) digitVal_digitChar_16 v v 0
      (Nat.le_refl v)
    rw [toDigitsLE]
    rw [this]
    simp
  have hne : ¬(List.replicate (64 - ((toDigitsLE 16 v).reverse).length) '0' ++
      (toDigitsLE 16 v).reverse).isEmpty = true := by
    by_cases h0 : v = 0
    · subst h0; decide
    · rw [List.isEmpty_eq_true, List.append_eq_nil]
      rintro ⟨-, hrev⟩
      exact toDigitsLEF_ne_nil 16 (by norm_num) h0 v (Nat.le_refl v)
        (List.reverse_eq_nil_iff.mp hrev)
  rw [parseRadix, if_neg hne, hfold]

/-- Decimal serialization round-trips through `BigUint` parsing. -/
theorem parseRadix_natToDecString (n : Nat) :
    parseRadix 10 (natToDecString n).data = some n := by
  by_cases h0 : n = 0
  · subst h0; decide
  · have hdata : (natToDecString n).data = (toDigitsLE 10 n).reverse := by
      rw [natToDecString, if_neg h0]
    rw [hdata, parseRadix]
    have hne : ¬((toDigitsLE 10 n).reverse.isEmpty = true) := by
      rw [List.isEmpty_eq_true, List.reverse_eq_nil_iff]
      exact toDigitsLEF_ne_nil 10 (by norm_num) h0 n (Nat.le_refl n)
    rw [if_neg hne]
    have := foldl_parse_toDigitsF 10 (by norm_num) digitVal_digitChar_10 n n 0
      (Nat.le_refl n)
    rw [toDigitsLE]
    rw [this]
    simp

/-! ## JSON round trip (C9) -/

theorem parseFpFromHex_roundtrip_canonical {v : Fp} (hv : v < bnP) :
    parseFpFromHex (fpToHexString v) = .ok v := by
  rw [parseFpFromHex_fpToHexString, Nat.mod_eq_of_lt hv]

theorem rrMapM_map_ok {α β : Type} (f : α → β) (g : β → RustResult α) (l : List α)
    (h : ∀ a ∈ l, g (f a) = .ok a) : rrMapM g (l.map f) = .ok l := by
  induction l with
  | nil => rfl
  | cons a rest ih =>
    simp only [List.map_cons, rrMapM]
    rw [h a (List.mem_cons_self a rest),
      ih (fun a' ha' => h a' (List.mem_cons_of_mem a ha'))]

theorem jsonNodeToNode_roundtrip (C : Nat) (n : Node) (hc : nodeCanonical C n) :
    jsonNodeToNode C (convertNodeToJson n) = .ok n := by
  obtain ⟨hh, hlen, hb⟩ := hc
  unfold jsonNodeToNode convertNodeToJson
  rw [parseFpFromHex_roundtrip_canonical hh,
    rrMapM_map_ok fpToHexString parseFpFromHex n.balances
      (fun v hv => parseFpFromHex_roundtrip_canonical (hb v hv))]
  simp [hlen]

theorem jsonEntryToEntry_roundtrip (C : Nat) (e : Entry)
    (hlen : e.balances.length = C) :
    jsonEntryToEntry C (jsonEntryFromEntry e) = .ok e := by
  unfold jsonEntryToEntry jsonEntryFromEntry
  simp only [List.length_map]
  rw [if_neg (by omega)]
  have hmapM : (e.balances.map natToDecString).mapM (fun s => parseRadix 10 s.data) =
      some e.balances := by
    induction e.balances with
    | nil => rfl
    | cons b rest ih =>
      rw [List.map_cons, List.mapM_cons, parseRadix_natToDecString b, ih]
      rfl
  rw [hmapM]
  have hz : C - e.balances.length = 0 := by omega
  rw [hz]
  simp

/-- C9 (amended): for every valid mini tree, the JSON round trip succeeds
and preserves the root, node layers, depth and entries, while the
`is_sorted` flag is forced to `false` (and the currency descriptors are
replaced by the `Dummy` placeholder); hence `from_tree(tree).to_mst()`
equals the original on the claim's fields exactly when `tree.is_sorted` is
already `false`. -/
theorem c9_amended_roundtrip (hs : HashScheme) (C : Nat) (t : MerkleSumTree)
    (_hwf : mstWellFormed hs t) (hcan : mstCanonical C t) :
    jsonToMst C (jsonFromTree t) = .ok
      { root := t.root, nodes := t.nodes, depth := t.depth, entries := t.entries
        cryptocurrencies := List.replicate C { name := "Dummy", chain := "ETH" }
        is_sorted := false } := by
  obtain ⟨hcroot, hclayers, hcent⟩ := hcan
  unfold jsonToMst jsonFromTree
  rw [jsonNodeToNode_roundtrip C t.root hcroot,
    rrMapM_map_ok _ _ t.nodes (fun layer hl =>
      rrMapM_map_ok _ _ layer (fun nd hn =>
        jsonNodeToNode_roundtrip C nd (hclayers layer hl nd hn))),
    rrMapM_map_ok _ _ t.entries (fun e he =>
      jsonEntryToEntry_roundtrip C e (hcent e he))]

/-- C9 (counterexample): `mstSortedW` is a valid mini tree with
`is_sorted = true`, but its JSON round trip returns a tree whose
`is_sorted` is `false` — `from_tree` hardcodes `is_sorted: false`, so the
round trip is not the identity on the `is_sorted` field. -/
theorem c9_counterexample :
    (mstWellFormed hsW mstSortedW ∧ mstCanonical 1 mstSortedW) ∧
    jsonToMst 1 (jsonFromTree mstSortedW) = .ok mstRTW ∧
    mstRTW.is_sorted = false ∧ mstSortedW.is_sorted = true := by
  refine ⟨⟨?_, ?_⟩, ?_, rfl, rfl⟩ <;> decide

/-- Witness for the amended C9 at a concrete input: the round trip of the
unsorted valid tree `mstW0`. -/
theorem c9_amended_roundtrip_witness :
    jsonToMst 1 (jsonFromTree mstW0) = .ok
      { root := mstW0.root, nodes := mstW0.nodes, depth := mstW0.depth
        entries := mstW0.entries
        cryptocurrencies := List.replicate 1 { name := "Dummy", chain := "ETH" }
        is_sorted := false } :=
  c9_amended_roundtrip hsW 1 mstW0 (by decide) (by decide)

/-! ## Perfect-tree layer lemmas (C1) -/

theorem getD_eq_getD {α : Type} (l : List α) {i : Nat} (h : i < l.length) (d0 d1 : α) :
    l.getD i d0 = l.getD i d1 := by
  rw [List.getD_eq_getElem l d0 h, List.getD_eq_getElem l d1 h]

theorem get?_eq_getD_of_lt {α : Type} (l : List α) {i : Nat} (h : i < l.length) (d : α) :
    l.get? i = some (l.getD i d) := by
  rw [List.get?_eq_get h, List.getD_eq_getElem l d h]
  rfl

theorem getD_map_of_lt {α β : Type} (f : α → β) (l : List α) {i : Nat}
    (h : i < l.length) (d0 : β) (d1 : α) :
    (l.map f).getD i d0 = f (l.getD i d1) := by
  rw [List.getD_eq_getElem _ d0 (by simpa using h), List.getD_eq_getElem l d1 h,
    List.getElem_map]

theorem siblingIndex_even {i : Nat} (h : i % 2 = 0) : siblingIndex i = i + 1 := by
  unfold siblingIndex
  omega

theorem siblingIndex_odd {i : Nat} (h : i % 2 = 1) : siblingIndex i = i - 1 := by
  unfold siblingIndex
  omega

theorem siblingIndex_lt {i m : Nat} (hm : 1 ≤ m) (h : i < 2 ^ m) :
    siblingIndex i < 2 ^ m := by
  have heven : 2 ^ m % 2 = 0 := by
    cases m with
    | zero => omega
    | succ k => simp [Nat.pow_succ, Nat.mul_mod_left]
  rcases Nat.mod_two_eq_zero_or_one i with hp | hp
  · rw [siblingIndex_even hp]; omega
  · rw [siblingIndex_odd hp]; omega

theorem pairLevel_length (hs : HashScheme) : ∀ l : List Node,
    (pairLevel hs l).length = (l.length + 1) / 2 := by
  intro l
  match l with
  | [] => simp [pairLevel]
  | [a] => simp [pairLevel]
  | a :: b :: rest =>
    rw [pairLevel]
    have := pairLevel_length hs rest
    simp only [List.length_cons]
    omega

theorem pairLevel_getD (hs : HashScheme) : ∀ (i : Nat) (l : List Node),
    2 * i + 1 < l.length →
    (pairLevel hs l).getD i padNode =
      combineNodes hs (l.getD (2 * i) padNode) (l.getD (2 * i + 1) padNode) := by
  intro i
  induction i with
  | zero =>
    intro l hl
    match l with
    | [] => simp at hl
    | [a] => simp at hl
    | a :: b :: rest =>
      rw [pairLevel]
      rfl
  | succ k ih =>
    intro l hl
    match l with
    | [] => simp at hl
    | [a] => simp at hl
    | a :: b :: rest =>
      rw [pairLevel]
      have hres : 2 * k + 1 < rest.length := by
        simp only [List.length_cons] at hl
        omega
      have e0 : (combineNodes hs a b :: pairLevel hs rest).getD (k + 1) padNode =
          (pairLevel hs rest).getD k padNode := rfl
      have e1 : (a :: b :: rest).getD (2 * (k + 1)) padNode =
          rest.getD (2 * k) padNode := by
        have h2 : 2 * (k + 1) = 2 * k + 2 := by omega
        rw [h2]
        rfl
      have e2 : (a :: b :: rest).getD (2 * (k + 1) + 1) padNode =
          rest.getD (2 * k + 1) padNode := by
        have h3 : 2 * (k + 1) + 1 = (2 * k + 1) + 2 := by omega
        rw [h3]
        rfl
      rw [e0, e1, e2, ih rest hres]

theorem layerAt_zero (hs : HashScheme) (leaves : List Node) :
    layerAt hs leaves 0 = leaves := rfl

theorem layerAt_succ_inner (hs : HashScheme) (leaves : List Node) (ℓ : Nat) :
    layerAt hs leaves (ℓ + 1) = layerAt hs (pairLevel hs leaves) ℓ :=
  Function.iterate_succ_apply (pairLevel hs) ℓ leaves

theorem layerAt_succ_outer (hs : HashScheme) (leaves : List Node) (ℓ : Nat) :
    layerAt hs leaves (ℓ + 1) = pairLevel hs (layerAt hs leaves ℓ) :=
  Function.iterate_succ_apply' (pairLevel hs) ℓ leaves

theorem layerAt_length (hs : HashScheme) : ∀ (ℓ n : Nat) (leaves : List Node),
    leaves.length = 2 ^ n → ℓ ≤ n →
    (layerAt hs leaves ℓ).length = 2 ^ (n - ℓ) := by
  intro ℓ
  induction ℓ with
  | zero => intro n leaves hlen _; simpa using hlen
  | succ k ih =>
    intro n leaves hlen hle
    obtain ⟨m, rfl⟩ : ∃ m, n = m + 1 := ⟨n - 1, by omega⟩
    rw [layerAt_succ_inner]
    have hpl : (pairLevel hs leaves).length = 2 ^ m := by
      rw [pairLevel_length hs leaves, hlen]
      have h2 : 2 ^ (m + 1) = 2 * 2 ^ m := by rw [Nat.pow_succ]; ring
      omega
    rw [ih m (pairLevel hs leaves) hpl (by omega)]
    congr 1
    omega

/-- The structural node identity of the layers: a node at level `ℓ+1` is the
combination of its two children at level `ℓ`. -/
theorem layerAt_getD_succ (hs : HashScheme) (leaves : List Node) (n ℓ i : Nat)
    (hlen : leaves.length = 2 ^ n) (hℓ : ℓ + 1 ≤ n) (hi : i < 2 ^ (n - (ℓ + 1))) :
    (layerAt hs leaves (ℓ + 1)).getD i padNode =
      combineNodes hs ((layerAt hs leaves ℓ).getD (2 * i) padNode)
        ((layerAt hs leaves ℓ).getD (2 * i + 1) padNode) := by
  rw [layerAt_succ_outer]
  apply pairLevel_getD hs i
  rw [layerAt_length hs ℓ n leaves hlen (by omega)]
  have hexp : n - ℓ = (n - (ℓ + 1)) + 1 := by omega
  rw [hexp, Nat.pow_succ]
  omega

theorem buildLevels_getD (hs : HashScheme) (leaves : List Node) (depth ℓ : Nat)
    (h : ℓ ≤ depth) :
    (buildLevels hs leaves depth).getD ℓ [] = layerAt hs leaves ℓ := by
  unfold buildLevels
  rw [getD_map_of_lt (layerAt hs leaves) (List.range (depth + 1))
    (by simp; omega) [] 0]
  congr 1
  rw [List.getD_eq_getElem _ _ (by simp; omega)]
  simp

theorem middleNodeFromPreimage_midPreimage (hs : HashScheme) (l r : Node) :
    middleNodeFromPreimage hs (midPreimage l r) = combineNodes hs l r := by
  unfold middleNodeFromPreimage combineNodes
  congr 1
  show (midPreimage l r).take ((midPreimage l r).length - 2) = _
  have hlen : (midPreimage l r).length - 2 =
      (List.zipWith fpAdd l.balances r.balances).length := by
    unfold midPreimage
    simp
  rw [hlen]
  exact List.take_left _ _

theorem leafNodeFromPreimage_leafPreimage (hs : HashScheme) (e : Entry) :
    leafNodeFromPreimage hs (leafPreimage hs e) = computeLeaf hs e := rfl

theorem climbStep_pair (hs : HashScheme) (l : List Node) (i : Nat)
    (hi : i < l.length) (heven : l.length % 2 = 0) :
    climbStep hs (l.getD i padNode)
      (((i % 2 : Nat) : Fp), l.getD (siblingIndex i) padNode) =
      (pairLevel hs l).getD (i / 2) padNode := by
  have hb : 2 * (i / 2) + 1 < l.length := by omega
  rw [pairLevel_getD hs (i / 2) l hb]
  rcases Nat.mod_two_eq_zero_or_one i with hp | hp
  · rw [hp, siblingIndex_even hp]
    show (if (0 : Fp) = 0 then _ else _) = _
    rw [if_pos rfl]
    have e2 : 2 * (i / 2) + 1 = i + 1 := by omega
    have e1 : 2 * (i / 2) = i := by omega
    rw [e2, e1]
  · rw [hp, siblingIndex_odd hp]
    show (if (1 : Fp) = 0 then _ else _) = _
    rw [if_neg (by norm_num)]
    have e2 : 2 * (i / 2) + 1 = i := by omega
    have e1 : 2 * (i / 2) = i - 1 := by omega
    rw [e2, e1]

/-- Completeness core: starting from leaf `i` of a perfect tree and folding
against the sibling nodes recorded per level (ordered by the path bits of
`i`), the climb reaches the single top node. -/
theorem climb_to_top (hs : HashScheme) : ∀ (n : Nat) (leaves : List Node) (i : Nat),
    leaves.length = 2 ^ n → i < 2 ^ n →
    climb hs (leaves.getD i padNode)
      ((List.range n).map (fun ℓ =>
        (((i >>> ℓ) % 2 : Fp),
          (layerAt hs leaves ℓ).getD (siblingIndex (i >>> ℓ)) padNode))) =
      (layerAt hs leaves n).getD 0 padNode := by
  intro n
  induction n with
  | zero =>
    intro leaves i hlen hi
    have hi0 : i = 0 := by
      have : (2 : Nat) ^ 0 = 1 := rfl
      omega
    subst hi0
    rfl
  | succ n ih =>
    intro leaves i hlen hi
    have hpow : (2 : Nat) ^ (n + 1) = 2 * 2 ^ n := by rw [Nat.pow_succ]; ring
    have hplen : (pairLevel hs leaves).length = 2 ^ n := by
      rw [pairLevel_length hs leaves, hlen]
      omega
    have hidiv : i / 2 < 2 ^ n := by omega
    rw [List.range_succ_eq_map, List.map_cons]
    simp only [climb, List.foldl_cons]
    simp only [Nat.shiftRight_zero, layerAt_zero]
    rw [climbStep_pair hs leaves i (by omega) (by omega)]
    rw [List.map_map]
    have hmapeq : (List.range n).map ((fun ℓ =>
        (((i >>> ℓ) % 2 : Fp),
          (layerAt hs leaves ℓ).getD (siblingIndex (i >>> ℓ)) padNode)) ∘ Nat.succ) =
        (List.range n).map (fun ℓ =>
          ((((i / 2) >>> ℓ) % 2 : Fp),
            (layerAt hs (pairLevel hs leaves) ℓ).getD
              (siblingIndex ((i / 2) >>> ℓ)) padNode)) := by
      apply List.map_congr_left
      intro ℓ _
      have hsh : i >>> (ℓ + 1) = (i / 2) >>> ℓ := by
        rw [show ℓ + 1 = 1 + ℓ by omega, Nat.shiftRight_add, Nat.shiftRight_one]
      show (((i >>> (ℓ + 1)) % 2 : Fp),
          (layerAt hs leaves (ℓ + 1)).getD (siblingIndex (i >>> (ℓ + 1))) padNode) = _
      rw [hsh, layerAt_succ_inner]
    rw [hmapeq]
    have := ih (pairLevel hs leaves) (i / 2) hplen hidiv
    simp only [climb] at this
    rw [this, ← layerAt_succ_inner]

theorem mapM_eq_map_option {α β : Type} (F : α → Option β) (G : α → β) (l : List α)
    (h : ∀ a ∈ l, F a = some (G a)) : l.mapM F = some (l.map G) := by
  induction l with
  | nil => rfl
  | cons a rest ih =>
    rw [List.mapM_cons, h a (List.mem_cons_self a rest),
      ih (fun a' ha' => h a' (List.mem_cons_of_mem a ha')), List.map_cons]
    rfl

theorem shiftRight_lt_pow {e d m : Nat} (he : e < 2 ^ d) (hm : m ≤ d) :
    e >>> m < 2 ^ (d - m) := by
  rw [Nat.shiftRight_eq_div_pow]
  rw [Nat.div_lt_iff_lt_mul (Nat.pos_pow_of_pos m (by norm_num))]
  calc e < 2 ^ d := he
    _ = 2 ^ (d - m) * 2 ^ m := by rw [← pow_add]; congr 1; omega

theorem middlePreimageAt_full (hs : HashScheme) (leaves : List Node) (n : Nat)
    (hlen : leaves.length = 2 ^ n) (ℓ s : Nat) (hℓ1 : 1 ≤ ℓ) (hℓn : ℓ ≤ n)
    (hslt : s < 2 ^ (n - ℓ)) :
    middlePreimageAt (buildLevels hs leaves n) ℓ s =
      .ok (midPreimage ((layerAt hs leaves (ℓ - 1)).getD (2 * s) padNode)
        ((layerAt hs leaves (ℓ - 1)).getD (2 * s + 1) padNode)) := by
  unfold middlePreimageAt
  rw [if_neg (by omega), buildLevels_getD hs leaves n (ℓ - 1) (by omega)]
  have hlev : (layerAt hs leaves (ℓ - 1)).length = 2 ^ (n - (ℓ - 1)) :=
    layerAt_length hs (ℓ - 1) n leaves hlen (by omega)
  have h2s : 2 * s + 1 < (layerAt hs leaves (ℓ - 1)).length := by
    rw [hlev]
    have hexp : n - (ℓ - 1) = (n - ℓ) + 1 := by omega
    rw [hexp, Nat.pow_succ]
    omega
  rw [get?_eq_getD_of_lt _ (by omega : 2 * s < (layerAt hs leaves (ℓ - 1)).length) padNode,
    get?_eq_getD_of_lt _ h2s padNode]

/-- The `generate_proof` of a well-formed full mini tree succeeds and returns
the explicit proof components. -/
theorem mstGenerateProof_wf (hs : HashScheme) (mt : MerkleSumTree) (d e : Nat)
    (hwf : mstWellFormed hs mt) (hd : mt.depth = d) (hd1 : 1 ≤ d)
    (he : e < 2 ^ d) :
    mstGenerateProof hs mt e = .ok
      { entry := mt.entries.getD e dfltEntry
        root := mt.root
        sibling_leaf_node_hash_preimage :=
          leafPreimage hs (mt.entries.getD (siblingIndex e) dfltEntry)
        sibling_middle_node_hash_preimages := (List.range (d - 1)).map (fun k =>
          midPreimage
            ((layerAt hs (mt.entries.map (computeLeaf hs)) k).getD
              (2 * siblingIndex (e >>> (k + 1))) padNode)
            ((layerAt hs (mt.entries.map (computeLeaf hs)) k).getD
              (2 * siblingIndex (e >>> (k + 1)) + 1) padNode))
        path_indices := (List.range d).map (fun ℓ => ((e >>> ℓ) % 2 : Fp)) } := by
  obtain ⟨wf1, wf2, wf3⟩ := hwf
  rw [hd] at wf1
  have hse : siblingIndex e < 2 ^ d := siblingIndex_lt hd1 he
  have hmapM : (List.range (mt.depth - 1)).mapM (fun k =>
      match middlePreimageAt mt.nodes (k + 1) (siblingIndex (e >>> (k + 1))) with
      | .ok p => some p
      | _ => none) =
      some ((List.range (d - 1)).map (fun k =>
        midPreimage
          ((layerAt hs (mt.entries.map (computeLeaf hs)) k).getD
            (2 * siblingIndex (e >>> (k + 1))) padNode)
          ((layerAt hs (mt.entries.map (computeLeaf hs)) k).getD
            (2 * siblingIndex (e >>> (k + 1)) + 1) padNode))) := by
    rw [hd]
    apply mapM_eq_map_option
    intro k hk
    have hk' : k < d - 1 := List.mem_range.mp hk
    have hshift : e >>> (k + 1) < 2 ^ (d - (k + 1)) :=
      shiftRight_lt_pow he (by omega)
    have hsib : siblingIndex (e >>> (k + 1)) < 2 ^ (d - (k + 1)) :=
      siblingIndex_lt (by omega) hshift
    have hlenl : (mt.entries.map (computeLeaf hs)).length = 2 ^ d := by
      rw [List.length_map, wf1]
    have hpre := middlePreimageAt_full hs (mt.entries.map (computeLeaf hs)) d hlenl
      (k + 1) (siblingIndex (e >>> (k + 1))) (by omega) (by omega) hsib
    rw [wf2, hd, hpre]
    simp
  unfold mstGenerateProof
  rw [get?_eq_getD_of_lt mt.entries (by omega : e < mt.entries.length) dfltEntry,
    get?_eq_getD_of_lt mt.entries (by omega : siblingIndex e < mt.entries.length) dfltEntry,
    hmapM, hd]

theorem aggLoop_full (hs : HashScheme) (aggLeaves : List Node) (D : Nat)
    (hlen : aggLeaves.length = 2 ^ D) :
    ∀ (k a cur : Nat), 1 ≤ a → a + k ≤ D → cur < 2 ^ (D - a) →
    aggLoop (buildLevels hs aggLeaves D) (List.range' a k) cur =
      .ok ((List.range k).map (fun m => ((cur >>> m) % 2 : Fp)),
        (List.range k).map (fun m =>
          midPreimage
            ((layerAt hs aggLeaves (a + m - 1)).getD
              (2 * siblingIndex (cur >>> m)) padNode)
            ((layerAt hs aggLeaves (a + m - 1)).getD
              (2 * siblingIndex (cur >>> m) + 1) padNode))) := by
  intro k
  induction k with
  | zero => intro a cur _ _ _; rfl
  | succ n ih =>
    intro a cur ha haD hcur
    have hDa1 : 1 ≤ D - a := by omega
    have hsibcur : siblingIndex cur < 2 ^ (D - a) := siblingIndex_lt hDa1 hcur
    have hlay : (buildLevels hs aggLeaves D).getD a [] = layerAt hs aggLeaves a :=
      buildLevels_getD hs aggLeaves D a (by omega)
    have hlaylen : (layerAt hs aggLeaves a).length = 2 ^ (D - a) :=
      layerAt_length hs a D aggLeaves hlen (by omega)
    rw [show List.range' a (n + 1) = a :: List.range' (a + 1) n from
      List.range'_succ a n 1]
    rw [aggLoop]
    rw [show cur - cur % 2 + (1 - cur % 2) = siblingIndex cur from rfl]
    rw [if_pos (by
      constructor
      · rw [hlay, hlaylen]; exact hsibcur
      · omega)]
    rw [middlePreimageAt_full hs aggLeaves D hlen a (siblingIndex cur) ha
      (by omega) hsibcur]
    rw [ih (a + 1) (cur / 2) (by omega) (by omega) (by
      have : cur / 2 < 2 ^ (D - a) / 2 ∨ cur / 2 < 2 ^ (D - (a + 1)) := by
        right
        have hx : (2 : Nat) ^ (D - a) = 2 * 2 ^ (D - (a + 1)) := by
          rw [← Nat.pow_succ']
          congr 1
          omega
        omega
      rcases this with h | h
      · have hx : (2 : Nat) ^ (D - a) = 2 * 2 ^ (D - (a + 1)) := by
          rw [← Nat.pow_succ']
          congr 1
          omega
        omega
      · exact h)]
    have hbits : ((cur % 2 : Fp) :: (List.range n).map (fun m => (((cur / 2) >>> m) % 2 : Fp))) =
        (List.range (n + 1)).map (fun m => ((cur >>> m) % 2 : Fp)) := by
      rw [List.range_succ_eq_map, List.map_cons, List.map_map]
      congr 1
      apply List.map_congr_left
      intro m _
      have hsh : cur >>> (m + 1) = (cur / 2) >>> m := by
        rw [show m + 1 = 1 + m by omega, Nat.shiftRight_add, Nat.shiftRight_one]
      rw [← hsh]
      rfl
    have hpres : (midPreimage
          ((layerAt hs aggLeaves (a - 1)).getD (2 * siblingIndex cur) padNode)
          ((layerAt hs aggLeaves (a - 1)).getD (2 * siblingIndex cur + 1) padNode) ::
        (List.range n).map (fun m =>
          midPreimage
            ((layerAt hs aggLeaves (a + 1 + m - 1)).getD
              (2 * siblingIndex ((cur / 2) >>> m)) padNode)
            ((layerAt hs aggLeaves (a + 1 + m - 1)).getD
              (2 * siblingIndex ((cur / 2) >>> m) + 1) padNode))) =
        (List.range (n + 1)).map (fun m =>
          midPreimage
            ((layerAt hs aggLeaves (a + m - 1)).getD
              (2 * siblingIndex (cur >>> m)) padNode)
            ((layerAt hs aggLeaves (a + m - 1)).getD
              (2 * siblingIndex (cur >>> m) + 1) padNode)) := by
      rw [List.range_succ_eq_map, List.map_cons, List.map_map]
      congr 1
      apply List.map_congr_left
      intro m _
      have hsh : cur >>> (m + 1) = (cur / 2) >>> m := by
        rw [show m + 1 = 1 + m by omega, Nat.shiftRight_add, Nat.shiftRight_one]
      have harith : a + 1 + m - 1 = a + (m + 1) - 1 := by omega
      rw [← hsh, harith]
      rfl
    rw [← hbits, ← hpres]

theorem aggLoop_from_zero (hs : HashScheme) (aggLeaves : List Node) (D j : Nat)
    (hlen : aggLeaves.length = 2 ^ D) (hD : 1 ≤ D) (hj : j < 2 ^ D) :
    aggLoop (buildLevels hs aggLeaves D) (List.range D) j =
      .ok ((List.range D).map (fun ℓ => ((j >>> ℓ) % 2 : Fp)),
        (List.range (D - 1)).map (fun m =>
          midPreimage
            ((layerAt hs aggLeaves m).getD
              (2 * siblingIndex (j >>> (m + 1))) padNode)
            ((layerAt hs aggLeaves m).getD
              (2 * siblingIndex (j >>> (m + 1)) + 1) padNode))) := by
  obtain ⟨Dm, rfl⟩ : ∃ m, D = m + 1 := ⟨D - 1, by omega⟩
  have harg : List.range (Dm + 1) = 0 :: List.range' 1 Dm := by
    rw [List.range_eq_range']
    exact List.range'_succ 0 Dm 1
  conv_lhs => rw [harg]
  rw [aggLoop]
  rw [if_neg (by simp)]
  have hjdiv : j / 2 < 2 ^ (Dm + 1 - 1) := by
    have hx : (2 : Nat) ^ (Dm + 1) = 2 * 2 ^ Dm := by
      rw [← Nat.pow_succ']
    simp only [Nat.add_sub_cancel]
    omega
  rw [aggLoop_full hs aggLeaves (Dm + 1) hlen Dm 1 (j / 2) (by omega) (by omega) hjdiv]
  have hbits : ((j % 2 : Fp) :: (List.range Dm).map (fun m => (((j / 2) >>> m) % 2 : Fp))) =
      (List.range (Dm + 1)).map (fun ℓ => ((j >>> ℓ) % 2 : Fp)) := by
    rw [List.range_succ_eq_map, List.map_cons, List.map_map]
    congr 1
    apply List.map_congr_left
    intro m _
    have hsh : j >>> (m + 1) = (j / 2) >>> m := by
      rw [show m + 1 = 1 + m by omega, Nat.shiftRight_add, Nat.shiftRight_one]
    rw [← hsh]
    rfl
  have hpres : ((List.range Dm).map (fun m =>
        midPreimage
          ((layerAt hs aggLeaves (1 + m - 1)).getD
            (2 * siblingIndex ((j / 2) >>> m)) padNode)
          ((layerAt hs aggLeaves (1 + m - 1)).getD
            (2 * siblingIndex ((j / 2) >>> m) + 1) padNode))) =
      (List.range (Dm + 1 - 1)).map (fun m =>
        midPreimage
          ((layerAt hs aggLeaves m).getD
            (2 * siblingIndex (j >>> (m + 1))) padNode)
          ((layerAt hs aggLeaves m).getD
            (2 * siblingIndex (j >>> (m + 1)) + 1) padNode)) := by
    simp only [Nat.add_sub_cancel]
    apply List.map_congr_left
    intro m _
    have hsh : j >>> (m + 1) = (j / 2) >>> m := by
      rw [show m + 1 = 1 + m by omega, Nat.shiftRight_add, Nat.shiftRight_one]
    have harith : 1 + m - 1 = m := by omega
    rw [harith, ← hsh]
  rw [← hbits, ← hpres]

theorem amstNew_ok_eq_record (hs : HashScheme) (C B : Nat)
    (minis : List MerkleSumTree) (ccs : List Cryptocurrency)
    (t : AggregationMerkleSumTree) (d : Nat)
    (hd : ∀ m ∈ minis, m.depth = d) (hne : minis ≠ [])
    (hok : amstNew hs C B minis ccs = .ok t) :
    t = { root := (layerAt hs (minis.map (·.root)) (ceilLog2 minis.length)).getD 0 padNode
          nodes := buildLevels hs (minis.map (·.root)) (ceilLog2 minis.length)
          depth := ceilLog2 minis.length
          cryptocurrencies := ccs
          mini_trees := minis } := by
  cases minis with
  | nil => exact absurd rfl hne
  | cons m0 rest =>
    by_cases hov : ((balancesAcc C ((m0 :: rest).map (·.root))).any
        (fun b => decide (2 ^ (8 * B) ≤ b))) = false
    · rw [amstNew_eq_ok hs C B m0 rest ccs d hd hov] at hok
      exact (RustResult.ok.inj hok).symm
    · exfalso
      have hov' : ((balancesAcc C ((m0 :: rest).map (·.root))).any
          (fun b => decide (2 ^ (8 * B) ≤ b))) = true := by
        revert hov
        cases ((balancesAcc C ((m0 :: rest).map (·.root))).any
          (fun b => decide (2 ^ (8 * B) ≤ b))) <;> simp
      have hall : ((m0 :: rest).all (fun m => decide (m.depth = m0.depth))) = true := by
        rw [List.all_eq_true]
        intro m hm
        rw [decide_eq_true_eq, hd m hm, hd m0 (List.mem_cons_self m0 rest)]
      unfold amstNew at hok
      simp only [List.isEmpty_cons, Bool.false_eq_true, if_false, List.head?_cons] at hok
      rw [if_pos hall, if_pos hov'] at hok
      exact absurd hok (by simp)

/-- The reconstructed sibling nodes of the mini-tree segment of a proof are
the actual sibling nodes along the path. -/
theorem mini_sibs_eq (hs : HashScheme) (mt : MerkleSumTree) (d e : Nat)
    (hwf : mstWellFormed hs mt) (hd : mt.depth = d) (hd1 : 1 ≤ d) (he : e < 2 ^ d) :
    leafNodeFromPreimage hs
        (leafPreimage hs (mt.entries.getD (siblingIndex e) dfltEntry)) ::
      ((List.range (d - 1)).map (fun k =>
        midPreimage
          ((layerAt hs (mt.entries.map (computeLeaf hs)) k).getD
            (2 * siblingIndex (e >>> (k + 1))) padNode)
          ((layerAt hs (mt.entries.map (computeLeaf hs)) k).getD
            (2 * siblingIndex (e >>> (k + 1)) + 1) padNode))).map
        (middleNodeFromPreimage hs) =
    (List.range d).map (fun ℓ =>
      (layerAt hs (mt.entries.map (computeLeaf hs)) ℓ).getD
        (siblingIndex (e >>> ℓ)) padNode) := by
  obtain ⟨wf1, wf2, wf3⟩ := hwf
  rw [hd] at wf1
  have hlen : (mt.entries.map (computeLeaf hs)).length = 2 ^ d := by
    rw [List.length_map, wf1]
  obtain ⟨dm, rfl⟩ : ∃ m, d = m + 1 := ⟨d - 1, by omega⟩
  rw [List.range_succ_eq_map, List.map_cons]
  congr 1
  · rw [leafNodeFromPreimage_leafPreimage]
    show _ = (layerAt hs (mt.entries.map (computeLeaf hs)) 0).getD
      (siblingIndex (e >>> 0)) padNode
    rw [layerAt_zero, Nat.shiftRight_zero]
    have hbound : siblingIndex e < mt.entries.length := by
      rw [wf1]
      exact siblingIndex_lt (by omega) he
    rw [getD_map_of_lt (computeLeaf hs) mt.entries hbound padNode dfltEntry]
  · rw [List.map_map, Nat.add_sub_cancel, List.map_map]
    apply List.map_congr_left
    intro k hk
    have hk' : k < dm := List.mem_range.mp hk
    have hshift : e >>> (k + 1) < 2 ^ (dm + 1 - (k + 1)) :=
      shiftRight_lt_pow he (by omega)
    have hsib : siblingIndex (e >>> (k + 1)) < 2 ^ (dm + 1 - (k + 1)) :=
      siblingIndex_lt (by omega) hshift
    show middleNodeFromPreimage hs (midPreimage _ _) = _
    rw [middleNodeFromPreimage_midPreimage]
    rw [← layerAt_getD_succ hs (mt.entries.map (computeLeaf hs)) (dm + 1) k
      (siblingIndex (e >>> (k + 1))) hlen (by omega) hsib]
    rfl

/-- The reconstructed sibling nodes of the aggregation segment of a proof
(the partner mini root first, then the materialized aggregation siblings)
are the actual sibling nodes along the aggregation path. -/
theorem agg_sibs_eq (hs : HashScheme) (minis : List MerkleSumTree) (d D j : Nat)
    (hK : minis.length = 2 ^ D) (hD : 1 ≤ D) (hj : j < 2 ^ D) (hd1 : 1 ≤ d)
    (hsib_wf : mstWellFormed hs (minis.getD (siblingIndex j) dfltMst))
    (hsib_d : (minis.getD (siblingIndex j) dfltMst).depth = d) :
    (midPreimage
        ((layerAt hs ((minis.getD (siblingIndex j) dfltMst).entries.map
          (computeLeaf hs)) (d - 1)).getD (2 * 0) padNode)
        ((layerAt hs ((minis.getD (siblingIndex j) dfltMst).entries.map
          (computeLeaf hs)) (d - 1)).getD (2 * 0 + 1) padNode) ::
      (List.range (D - 1)).map (fun m =>
        midPreimage
          ((layerAt hs (minis.map (·.root)) m).getD
            (2 * siblingIndex (j >>> (m + 1))) padNode)
          ((layerAt hs (minis.map (·.root)) m).getD
            (2 * siblingIndex (j >>> (m + 1)) + 1) padNode))).map
      (middleNodeFromPreimage hs) =
    (List.range D).map (fun ℓ =>
      (layerAt hs (minis.map (·.root)) ℓ).getD (siblingIndex (j >>> ℓ)) padNode) := by
  obtain ⟨wf1, wf2, wf3⟩ := hsib_wf
  rw [hsib_d] at wf1
  have hlen : ((minis.getD (siblingIndex j) dfltMst).entries.map
      (computeLeaf hs)).length = 2 ^ d := by
    rw [List.length_map, wf1]
  have hsjK : siblingIndex j < minis.length := by
    rw [hK]
    exact siblingIndex_lt hD hj
  obtain ⟨Dm, rfl⟩ : ∃ m, D = m + 1 := ⟨D - 1, by omega⟩
  rw [List.range_succ_eq_map, List.map_cons]
  congr 1
  · rw [middleNodeFromPreimage_midPreimage]
    obtain ⟨dm, rfl⟩ : ∃ m, d = m + 1 := ⟨d - 1, by omega⟩
    rw [show dm + 1 - 1 = dm by omega]
    rw [← layerAt_getD_succ hs _ (dm + 1) dm 0 hlen (by omega)
      (by rw [Nat.sub_self]; norm_num)]
    rw [hsib_d] at wf3
    rw [wf3]
    show _ = (layerAt hs (minis.map (·.root)) 0).getD (siblingIndex (j >>> 0)) padNode
    rw [layerAt_zero, Nat.shiftRight_zero,
      getD_map_of_lt (fun x => x.root) minis hsjK padNode dfltMst]
  · rw [List.map_map, List.map_map]
    apply List.map_congr_left
    intro m hm
    have hm' : m < Dm := List.mem_range.mp hm
    have hshift : j >>> (m + 1) < 2 ^ (Dm + 1 - (m + 1)) :=
      shiftRight_lt_pow hj (by omega)
    have hsib : siblingIndex (j >>> (m + 1)) < 2 ^ (Dm + 1 - (m + 1)) :=
      siblingIndex_lt (by omega) hshift
    have hlenAgg : (minis.map (·.root)).length = 2 ^ (Dm + 1) := by
      rw [List.length_map, hK]
    show middleNodeFromPreimage hs (midPreimage _ _) = _
    rw [middleNodeFromPreimage_midPreimage]
    rw [← layerAt_getD_succ hs (minis.map (·.root)) (Dm + 1) m
      (siblingIndex (j >>> (m + 1))) hlenAgg (by omega) hsib]
    rfl

/-- C1 (amended): for every aggregation tree built by
`AggregationMerkleSumTree::new` from `K = 2^D` (`D ≥ 1`) well-formed mini
trees of equal depth `d ≥ 1` and every valid user index `u < K·2^d`,
`generate_proof(u)` succeeds, the returned proof's root equals the
aggregation root, and `verify_proof` accepts the proof. -/
theorem c1_amended_generate_verify (hs : HashScheme) (C B : Nat)
    (minis : List MerkleSumTree) (ccs : List Cryptocurrency) (d D : Nat)
    (t : AggregationMerkleSumTree) (u : Nat)
    (hD : 1 ≤ D) (hK : minis.length = 2 ^ D) (hd1 : 1 ≤ d)
    (hwf : ∀ m ∈ minis, mstWellFormed hs m ∧ m.depth = d)
    (hok : amstNew hs C B minis ccs = .ok t)
    (hu : u < minis.length * 2 ^ d) :
    ∃ p, amstGenerateProof hs t u = .ok p ∧ p.root = t.root ∧
      verifyProof hs p = true := by
  have h2D : 0 < 2 ^ D := Nat.pos_pow_of_pos D (by norm_num)
  have hne : minis ≠ [] := by
    intro h
    rw [h] at hK
    simp only [List.length_nil] at hK
    exact absurd hK.symm (Nat.ne_of_gt h2D)
  have hdeps : ∀ m ∈ minis, m.depth = d := fun m hm => (hwf m hm).2
  have hceil : ceilLog2 minis.length = D := by
    rw [hK, ceilLog2_eq_clog, Nat.clog_pow 2 D (by norm_num)]
  have hteq := amstNew_ok_eq_record hs C B minis ccs t d hdeps hne hok
  rw [hceil] at hteq
  subst hteq
  have h2d : 0 < 2 ^ d := Nat.pos_pow_of_pos d (by norm_num)
  have hjK : u / 2 ^ d < minis.length := (Nat.div_lt_iff_lt_mul h2d).mpr hu
  have hjD : u / 2 ^ d < 2 ^ D := by rw [← hK]; exact hjK
  have he : u % 2 ^ d < 2 ^ d := Nat.mod_lt u h2d
  have hsjD : siblingIndex (u / 2 ^ d) < 2 ^ D := siblingIndex_lt hD hjD
  have hsjK : siblingIndex (u / 2 ^ d) < minis.length := by rw [hK]; exact hsjD
  cases minis with
  | nil => exact absurd rfl hne
  | cons m0 rest =>
    have hmtj_mem := getD_mem_of_lt dfltMst hjK
    have hsib_mem := getD_mem_of_lt dfltMst hsjK
    have hmtj_wf := (hwf _ hmtj_mem).1
    have hmtj_d := (hwf _ hmtj_mem).2
    have hsib_d := (hwf _ hsib_mem).2
    have hm0d : m0.depth = d := (hwf m0 (List.mem_cons_self m0 rest)).2
    have hloc : amstGetEntryLocation
        { root := (layerAt hs ((m0 :: rest).map (·.root)) D).getD 0 padNode
          nodes := buildLevels hs ((m0 :: rest).map (·.root)) D
          depth := D, cryptocurrencies := ccs, mini_trees := m0 :: rest } u =
        .ok (u / 2 ^ d, u % 2 ^ d) := by
      unfold amstGetEntryLocation
      simp only [List.head?_cons]
      rw [hm0d]
    have hpp := mstGenerateProof_wf hs ((m0 :: rest).getD (u / 2 ^ d) dfltMst) d
      (u % 2 ^ d) hmtj_wf hmtj_d hd1 he
    obtain ⟨swf1, swf2, swf3⟩ := (hwf _ hsib_mem).1
    rw [hsib_d] at swf1
    have hslen : (((m0 :: rest).getD (siblingIndex (u / 2 ^ d)) dfltMst).entries.map
        (computeLeaf hs)).length = 2 ^ d := by
      rw [List.length_map, swf1]
    have hpre0 : middlePreimageAt
        ((m0 :: rest).getD (siblingIndex (u / 2 ^ d)) dfltMst).nodes
        ((m0 :: rest).getD (siblingIndex (u / 2 ^ d)) dfltMst).depth 0 = .ok
        (midPreimage
          ((layerAt hs (((m0 :: rest).getD (siblingIndex (u / 2 ^ d)) dfltMst).entries.map
            (computeLeaf hs)) (d - 1)).getD (2 * 0) padNode)
          ((layerAt hs (((m0 :: rest).getD (siblingIndex (u / 2 ^ d)) dfltMst).entries.map
            (computeLeaf hs)) (d - 1)).getD (2 * 0 + 1) padNode)) := by
      rw [swf2, hsib_d]
      exact middlePreimageAt_full hs _ d hslen d 0 hd1 (Nat.le_refl d)
        (by rw [Nat.sub_self]; norm_num)
    have hlenAgg : ((m0 :: rest).map (·.root)).length = 2 ^ D := by
      rw [List.length_map, hK]
    have hagg := aggLoop_from_zero hs ((m0 :: rest).map (·.root)) D (u / 2 ^ d)
      hlenAgg hD hjD
    have hsjif : (if (u / 2 ^ d) % 2 = 0 then u / 2 ^ d + 1 else u / 2 ^ d - 1) =
        siblingIndex (u / 2 ^ d) := by
      rcases Nat.mod_two_eq_zero_or_one (u / 2 ^ d) with hp | hp
      · rw [if_pos hp, siblingIndex_even hp]
      · rw [if_neg (by omega), siblingIndex_odd hp]
    have hgen : amstGenerateProof hs
        { root := (layerAt hs ((m0 :: rest).map (·.root)) D).getD 0 padNode
          nodes := buildLevels hs ((m0 :: rest).map (·.root)) D
          depth := D, cryptocurrencies := ccs, mini_trees := m0 :: rest } u =
        .ok (c1Proof hs (m0 :: rest) d D u) := by
      unfold amstGenerateProof
      rw [hloc]
      simp only [get?_eq_getD_of_lt (m0 :: rest) hjK dfltMst, hsjif,
        get?_eq_getD_of_lt (m0 :: rest) hsjK dfltMst, hpp, hpre0, hagg, c1Proof]
    have hlenl : (((m0 :: rest).getD (u / 2 ^ d) dfltMst).entries.map
        (computeLeaf hs)).length = 2 ^ d := by
      obtain ⟨jwf1, _, _⟩ := (hwf _ hmtj_mem).1
      rw [hmtj_d] at jwf1
      rw [List.length_map, jwf1]
    have he_lt : u % 2 ^ d < ((m0 :: rest).getD (u / 2 ^ d) dfltMst).entries.length := by
      obtain ⟨jwf1, _, _⟩ := (hwf _ hmtj_mem).1
      rw [hmtj_d] at jwf1
      rw [jwf1]
      exact he
    have hver : verifyProof hs (c1Proof hs (m0 :: rest) d D u) = true := by
      unfold verifyProof c1Proof
      rw [if_pos (by simp; omega)]
      simp only [decide_eq_true_eq]
      rw [List.map_append, ← List.cons_append]
      rw [List.zip_append (by simp; omega)]
      rw [mini_sibs_eq hs ((m0 :: rest).getD (u / 2 ^ d) dfltMst) d (u % 2 ^ d)
        hmtj_wf hmtj_d hd1 he]
      rw [agg_sibs_eq hs (m0 :: rest) d D (u / 2 ^ d) hK hD hjD hd1
        ((hwf _ hsib_mem).1) hsib_d]
      rw [List.zip_map', List.zip_map']
      simp only [climb]
      rw [List.foldl_append]
      rw [← getD_map_of_lt (computeLeaf hs)
        ((m0 :: rest).getD (u / 2 ^ d) dfltMst).entries he_lt padNode dfltEntry]
      have hstage1 := climb_to_top hs d
        (((m0 :: rest).getD (u / 2 ^ d) dfltMst).entries.map (computeLeaf hs))
        (u % 2 ^ d) hlenl he
      simp only [climb] at hstage1
      rw [hstage1]
      obtain ⟨jwf1, jwf2, jwf3⟩ := (hwf _ hmtj_mem).1
      rw [hmtj_d] at jwf3
      rw [jwf3]
      rw [← getD_map_of_lt (fun x => x.root) (m0 :: rest) hjK padNode dfltMst]
      have hstage2 := climb_to_top hs D ((m0 :: rest).map (·.root)) (u / 2 ^ d)
        hlenAgg hjD
      simp only [climb] at hstage2
      rw [hstage2]
    exact ⟨c1Proof hs (m0 :: rest) d D u, hgen, rfl, hver⟩

/-- C1 (counterexample): with `K = 1` well-formed mini tree of depth 1 —
a legal input for which `AggregationMerkleSumTree::new` succeeds — the user
index 0 is valid, yet `generate_proof(0)` panics: the source fetches
`mini_trees[1]`, the partner of mini tree 0, without a bounds check, and no
partner exists. The claim's "generate_proof(u) succeeds" fails. -/
theorem c1_counterexample :
    mstWellFormed hsW mstD1a ∧ mstD1a.depth = 1 ∧
    amstNew hsW 1 1 [mstD1a] [] = .ok amstK1 ∧
    0 < [mstD1a].length * 2 ^ 1 ∧
    amstGenerateProof hsW amstK1 0 = .crashed := by
  refine ⟨?_, ?_, ?_, ?_, ?_⟩ <;> decide

/-- Witness for the amended C1 at a concrete input: `K = 2` depth-1 mini
trees and user index 0. -/
theorem c1_amended_generate_verify_witness :
    ∃ p, amstGenerateProof hsW amstK2 0 = .ok p ∧ p.root = amstK2.root ∧
      verifyProof hsW p = true :=
  c1_amended_generate_verify hsW 1 1 [mstD1a, mstD1b] [] 1 1 amstK2 0
    (by decide) (by decide) (by decide) (by decide) (by decide) (by decide)

end SummaAggregation
